import Mathlib

/-!
Verification of the libjxl adaptive entropy decoder (`jxl/dec_ans.h` and its
implementation file) against its natural-language specification.

The C++ code is shallowly embedded: machine integers become `Nat` with explicit
`% 2 ^ w` truncation at the points where the C++ computation can wrap, the
bit-stream cursor becomes a pure `BitReader` value, and fallible decoders return
`Option`. Components of the repository that are referenced but whose sources are
not available (`jxl/ans_params.h`, `jxl/ans_common.h`, `jxl/base/bits.h`,
`jxl/fields.h`, the brunsli Huffman tables) are modelled from the specification;
each such definition carries a doc comment starting with `Modelled from the spec`.
-/

namespace Jxl

/-- Modelled from the spec: `ANS_LOG_TAB_SIZE` from `jxl/ans_params.h` (not in
src/); the spec fixes it at 12 (so `ANS_TAB_SIZE = 4096`). -/
def ANS_LOG_TAB_SIZE : Nat := 12

/-- `ANS_TAB_SIZE = 1 << ANS_LOG_TAB_SIZE`. -/
def ANS_TAB_SIZE : Nat := 2 ^ ANS_LOG_TAB_SIZE

/-- Modelled from the spec: `ANS_SIGNATURE` from `jxl/ans_params.h` (not in
src/), the fixed bit pattern marking a valid initial/terminal ANS state.  Its
concrete value is irrelevant to every theorem below. -/
def ANS_SIGNATURE : Nat := 0x13

/-- `kWindowSize = 1 << 20`, the LZ77 window size (`jxl/dec_ans.h`). -/
def kWindowSize : Nat := 2 ^ 20

/-- `kWindowMask = kWindowSize - 1` (`jxl/dec_ans.h`). -/
def kWindowMask : Nat := kWindowSize - 1

/-- `kNumSpecialDistances = 120` (`jxl/dec_ans.h`). -/
def kNumSpecialDistances : Nat := 120

/-- Value of the n-bit group `data pos, data (pos+1), ...` read LSB-first, as the
bit-reader collaborator delivers it. -/
def peekBitsFrom (data : Nat → Bool) : Nat → Nat → Nat
  | _, 0 => 0
  | p, n + 1 => (cond (data p) 1 0) + 2 * peekBitsFrom data (p + 1) n

/-- The bit-reader collaborator (`jxl/dec_bit_reader.h`, external per the spec):
a cursor over an infinite bit sequence, bits delivered LSB-first.  Reads past the
real buffer return arbitrary (here: the function's) values, matching the spec's
malformed-stream tolerance; `Refill` is a no-op in this model. -/
structure BitReader where
  data : Nat → Bool
  pos : Nat

/-- `PeekBits(n)` / `PeekFixedBits<n>`: non-consuming read of `n` bits. -/
def BitReader.peekBits (br : BitReader) (n : Nat) : Nat := peekBitsFrom br.data br.pos n

/-- `Consume(n)`: advance the cursor by `n` bits. -/
def BitReader.consume (br : BitReader) (n : Nat) : BitReader := ⟨br.data, br.pos + n⟩

/-- `ReadBits(n)` / `ReadFixedBits<n>`: peek then consume. -/
def BitReader.readBits (br : BitReader) (n : Nat) : Nat × BitReader :=
  (br.peekBits n, br.consume n)

theorem peekBitsFrom_lt (data : Nat → Bool) (p n : Nat) : peekBitsFrom data p n < 2 ^ n := by
  induction n generalizing p with
  | zero => simp [peekBitsFrom]
  | succ n ih =>
    have h := ih (p + 1)
    cases hb : data p <;> simp [peekBitsFrom, hb, pow_succ] <;> omega

theorem BitReader.peekBits_lt (br : BitReader) (n : Nat) : br.peekBits n < 2 ^ n :=
  peekBitsFrom_lt br.data br.pos n

/-- `HybridUintConfig` (`jxl/dec_ans.h`): the split-encoding configuration. -/
structure HybridUintConfig where
  split_exponent : Nat
  split_token : Nat
  msb_in_token : Nat
  lsb_in_token : Nat
deriving Repr, DecidableEq

/-- Fuel-driven binary logarithm, kernel-reducible; with enough fuel it agrees
with `Nat.log2` (see `log2Fuel_eq`). -/
def log2Fuel : Nat → Nat → Nat
  | 0, _ => 0
  | fuel + 1, v => if v ≥ 2 then log2Fuel fuel (v / 2) + 1 else 0

theorem log2Fuel_eq (fuel v : Nat) (h : v ≤ fuel) : log2Fuel fuel v = Nat.log2 v := by
  induction fuel generalizing v with
  | zero =>
    have hv : v = 0 := by omega
    subst hv
    rw [Nat.log2]
    simp [log2Fuel]
  | succ fuel ih =>
    rw [log2Fuel, Nat.log2]
    by_cases h2 : v ≥ 2
    · simp only [h2, if_true]
      rw [ih (v / 2) (by omega)]
    · simp [h2]

/-- Modelled from the spec: `FloorLog2Nonzero` from `jxl/base/bits.h` (not in
src/), the floor of the base-2 logarithm of a nonzero value. -/
def FloorLog2Nonzero (v : Nat) : Nat := log2Fuel v v

theorem FloorLog2Nonzero_eq_log2 (v : Nat) : FloorLog2Nonzero v = Nat.log2 v :=
  log2Fuel_eq v v le_rfl

/-- Fuel-driven ceiling binary logarithm, kernel-reducible mirror of
`Nat.clog 2`. -/
def clog2Fuel : Nat → Nat → Nat
  | 0, _ => 0
  | fuel + 1, v => if 1 < v then clog2Fuel fuel ((v + 1) / 2) + 1 else 0

/-- Modelled from the spec: `CeilLog2Nonzero` from `jxl/base/bits.h` (not in
src/), the ceiling of the base-2 logarithm of a nonzero value. -/
def CeilLog2Nonzero (v : Nat) : Nat := clog2Fuel v v

/-- The C++ constructor `HybridUintConfig(split_exponent, msb_in_token,
lsb_in_token)`: sets `split_token = 1 << split_exponent`. -/
def HybridUintConfig.make (split_exponent msb_in_token lsb_in_token : Nat) :
    HybridUintConfig :=
  ⟨split_exponent, 2 ^ split_exponent, msb_in_token, lsb_in_token⟩

/-- `HybridUintConfig::Encode` (`jxl/dec_ans.h`, lines 76-93): maps `value` to
`(token, nbits, bits)`.  The C++ `uint32_t` arithmetic never wraps for
`value < 2^32` and a configuration satisfying the constructor invariant
`msb_in_token + lsb_in_token <= split_exponent` with `split_token =
2^split_exponent` (then `FloorLog2Nonzero value >= split_exponent` in the else
branch, so the `Nat` subtractions agree with the C++ unsigned ones). -/
def HybridUintConfig.encode (c : HybridUintConfig) (value : Nat) : Nat × Nat × Nat :=
  if value < c.split_token then (value, 0, 0)
  else
    let n := FloorLog2Nonzero value
    let m := value - 2 ^ n
    let token := c.split_token + ((n - c.split_exponent) <<< (c.msb_in_token + c.lsb_in_token)) +
        ((m >>> (n - c.msb_in_token)) <<< c.lsb_in_token) + (m &&& (2 ^ c.lsb_in_token - 1))
    let nbits := n - c.msb_in_token - c.lsb_in_token
    let bits := (value >>> c.lsb_in_token) &&& (2 ^ nbits - 1)
    (token, nbits, bits)

/-- `ANSSymbolReader::ReadHybridUintConfig` (`jxl/dec_ans.h`, lines 261-287).
The `nbits` line is a `size_t` computation assigned to `uint32_t` and then
masked with `&= 31u`; the embedding keeps the `size_t` wrap of
`split_exponent - (msb_in_token + lsb_in_token)` (adding `2^64` before the
`Nat` subtraction) and the `uint32_t` truncation.  The final `ret` expression
stays below `2^63` for any configuration with `msb_in_token + lsb_in_token <= 31`
(as produced by the decoder), so it carries no truncation. -/
def readHybridUintConfig (c : HybridUintConfig) (token : Nat) (br : BitReader) :
    Nat × BitReader :=
  if token < c.split_token then (token, br)
  else
    let k := c.msb_in_token + c.lsb_in_token
    let nbits := ((2 ^ 64 + c.split_exponent - k + ((token - c.split_token) >>> k)) % 2 ^ 32) % 32
    let low := token &&& (2 ^ c.lsb_in_token - 1)
    let token1 := token >>> c.lsb_in_token
    let (bits, br1) := br.readBits nbits
    let ret := ((((2 ^ c.msb_in_token ||| (token1 &&& (2 ^ c.msb_in_token - 1))) <<< nbits)
        ||| bits) <<< c.lsb_in_token) ||| low
    (ret, br1)

end Jxl

namespace Jxl

/-- Disjoint bitwise-or is addition (wrapper around `Nat.mul_add_lt_is_or`). -/
theorem or_disjoint {b k : Nat} (a : Nat) (hb : b < 2 ^ k) :
    a * 2 ^ k ||| b = a * 2 ^ k + b := by
  rw [Nat.mul_comm a (2 ^ k), ← Nat.mul_add_lt_is_or hb a]

/-- Arithmetic core of the hybrid-uint roundtrip: decoding the token the encoder
produces for the value `2 ^ n + mv` (with `mv < 2 ^ n` and `se ≤ n < 32`)
returns that value, provided the reader supplies the encoder's extra bits. -/
theorem hybrid_roundtrip_core (se msb lsb n mv : Nat) (br : BitReader)
    (hcfg : msb + lsb ≤ se) (hsen : se ≤ n) (hn31 : n < 32) (hm : mv < 2 ^ n)
    (hbits : br.peekBits (n - msb - lsb)
      = ((2 ^ n + mv) / 2 ^ lsb) % 2 ^ (n - msb - lsb)) :
    (readHybridUintConfig (HybridUintConfig.make se msb lsb)
      (2 ^ se + (n - se) * 2 ^ (msb + lsb) + (mv / 2 ^ (n - msb)) * 2 ^ lsb + mv % 2 ^ lsb)
      br).1 = 2 ^ n + mv := by
  have hpow_pos : ∀ j : Nat, (0:Nat) < 2 ^ j := fun j => Nat.pos_pow_of_pos j (by norm_num)
  have hhi : mv / 2 ^ (n - msb) < 2 ^ msb := by
    rw [Nat.div_lt_iff_lt_mul (hpow_pos _)]
    calc mv < 2 ^ n := hm
      _ = 2 ^ msb * 2 ^ (n - msb) := by rw [← pow_add]; congr 1; omega
  have hlo : mv % 2 ^ lsb < 2 ^ lsb := Nat.mod_lt _ (hpow_pos _)
  have htok_ge : ¬ (2 ^ se + (n - se) * 2 ^ (msb + lsb)
      + (mv / 2 ^ (n - msb)) * 2 ^ lsb + mv % 2 ^ lsb) < 2 ^ se := by omega
  rw [readHybridUintConfig]
  simp only [HybridUintConfig.make, if_neg htok_ge, BitReader.readBits,
    Nat.shiftLeft_eq, Nat.shiftRight_eq_div_pow, Nat.and_pow_two_sub_one_eq_mod]
  -- Step A: the reconstructed nbits equals n - msb - lsb
  have hsplit_small : (mv / 2 ^ (n - msb)) * 2 ^ lsb + mv % 2 ^ lsb < 2 ^ (msb + lsb) := by
    calc (mv / 2 ^ (n - msb)) * 2 ^ lsb + mv % 2 ^ lsb
        < (mv / 2 ^ (n - msb)) * 2 ^ lsb + 2 ^ lsb := by omega
      _ = (mv / 2 ^ (n - msb) + 1) * 2 ^ lsb := by ring
      _ ≤ 2 ^ msb * 2 ^ lsb := Nat.mul_le_mul_right _ (by omega)
      _ = 2 ^ (msb + lsb) := by rw [← pow_add]
  have hA : ((2 ^ 64 + se - (msb + lsb)
      + (2 ^ se + (n - se) * 2 ^ (msb + lsb) + (mv / 2 ^ (n - msb)) * 2 ^ lsb + mv % 2 ^ lsb
          - 2 ^ se) / 2 ^ (msb + lsb)) % 2 ^ 32) % 32 = n - msb - lsb := by
    have h1 : 2 ^ se + (n - se) * 2 ^ (msb + lsb) + (mv / 2 ^ (n - msb)) * 2 ^ lsb + mv % 2 ^ lsb
        - 2 ^ se
        = 2 ^ (msb + lsb) * (n - se) + ((mv / 2 ^ (n - msb)) * 2 ^ lsb + mv % 2 ^ lsb) := by
      ring_nf
      omega
    rw [h1, Nat.mul_add_div (hpow_pos _), Nat.div_eq_of_lt hsplit_small, Nat.add_zero]
    have h3 : 2 ^ 64 + se - (msb + lsb) + (n - se) = 2 ^ 32 * 2 ^ 32 + (n - msb - lsb) := by
      have hp : (2:Nat) ^ 64 = 2 ^ 32 * 2 ^ 32 := by norm_num
      omega
    have h5 : n - msb - lsb < 2 ^ 32 := by
      have : (32:Nat) < 2 ^ 32 := by norm_num
      omega
    rw [h3, Nat.mul_add_mod, Nat.mod_eq_of_lt h5, Nat.mod_eq_of_lt (by omega)]
  rw [hA, hbits]
  -- Step B: low bits and lsb-shifted token
  have e1 : (2:Nat) ^ se = 2 ^ lsb * 2 ^ (se - lsb) := by rw [← pow_add]; congr 1; omega
  have e2 : (2:Nat) ^ (msb + lsb) = 2 ^ lsb * 2 ^ msb := by rw [← pow_add]; congr 1; omega
  have hsplit : 2 ^ se + (n - se) * 2 ^ (msb + lsb)
      + (mv / 2 ^ (n - msb)) * 2 ^ lsb + mv % 2 ^ lsb
      = 2 ^ lsb * (2 ^ (se - lsb) + (n - se) * 2 ^ msb + mv / 2 ^ (n - msb)) + mv % 2 ^ lsb := by
    rw [e1, e2]; ring
  rw [hsplit, Nat.mul_add_mod, Nat.mod_eq_of_lt hlo,
    Nat.mul_add_div (hpow_pos lsb), Nat.div_eq_of_lt hlo, Nat.add_zero]
  -- Step C: extracting the msb bits of the mantissa
  have e3 : (2:Nat) ^ (se - lsb) = 2 ^ msb * 2 ^ (se - (msb + lsb)) := by
    rw [← pow_add]; congr 1; omega
  have hC : (2 ^ (se - lsb) + (n - se) * 2 ^ msb + mv / 2 ^ (n - msb)) % 2 ^ msb
      = mv / 2 ^ (n - msb) := by
    have h : 2 ^ (se - lsb) + (n - se) * 2 ^ msb + mv / 2 ^ (n - msb)
        = 2 ^ msb * (2 ^ (se - (msb + lsb)) + (n - se)) + mv / 2 ^ (n - msb) := by
      rw [e3]; ring
    rw [h, Nat.mul_add_mod, Nat.mod_eq_of_lt hhi]
  rw [hC]
  -- Step D: the disjoint ors become sums
  have hD : 2 ^ msb ||| mv / 2 ^ (n - msb) = 2 ^ msb + mv / 2 ^ (n - msb) := by
    have := or_disjoint (k := msb) 1 hhi
    simpa using this
  rw [hD]
  have hmid : ((2 ^ n + mv) / 2 ^ lsb) % 2 ^ (n - msb - lsb) < 2 ^ (n - msb - lsb) :=
    Nat.mod_lt _ (hpow_pos _)
  rw [or_disjoint (2 ^ msb + mv / 2 ^ (n - msb)) hmid]
  rw [or_disjoint ((2 ^ msb + mv / 2 ^ (n - msb)) * 2 ^ (n - msb - lsb)
      + ((2 ^ n + mv) / 2 ^ lsb) % 2 ^ (n - msb - lsb)) hlo]
  -- Step E: identify the extra bits with the middle slice of the mantissa
  have hr_def : mv = 2 ^ (n - msb) * (mv / 2 ^ (n - msb)) + mv % 2 ^ (n - msb) :=
    (Nat.div_add_mod mv _).symm
  have hr : mv % 2 ^ (n - msb) < 2 ^ (n - msb) := Nat.mod_lt _ (hpow_pos _)
  have e4 : (2:Nat) ^ (n - msb) = 2 ^ lsb * 2 ^ (n - msb - lsb) := by
    rw [← pow_add]; congr 1; omega
  have e5 : (2:Nat) ^ n = 2 ^ lsb * 2 ^ (n - lsb) := by rw [← pow_add]; congr 1; omega
  have e6 : (2:Nat) ^ (n - lsb) = 2 ^ (n - msb - lsb) * 2 ^ msb := by
    rw [← pow_add]; congr 1; omega
  have hm2 : mv = 2 ^ lsb * (2 ^ (n - msb - lsb) * (mv / 2 ^ (n - msb))) + mv % 2 ^ (n - msb) := by
    calc mv = 2 ^ (n - msb) * (mv / 2 ^ (n - msb)) + mv % 2 ^ (n - msb) := hr_def
      _ = 2 ^ lsb * (2 ^ (n - msb - lsb) * (mv / 2 ^ (n - msb))) + mv % 2 ^ (n - msb) := by
          rw [e4]; ring
  have hval_div : (2 ^ n + mv) / 2 ^ lsb = 2 ^ (n - lsb) + mv / 2 ^ lsb := by
    have hv : 2 ^ n + mv = 2 ^ lsb * 2 ^ (n - lsb) + mv := by rw [← e5]
    rw [hv, Nat.mul_add_div (hpow_pos lsb)]
  have hmdiv : mv / 2 ^ lsb
      = 2 ^ (n - msb - lsb) * (mv / 2 ^ (n - msb)) + (mv % 2 ^ (n - msb)) / 2 ^ lsb := by
    nth_rewrite 1 [hm2]
    rw [Nat.mul_add_div (hpow_pos lsb)]
  have hrlt : (mv % 2 ^ (n - msb)) / 2 ^ lsb < 2 ^ (n - msb - lsb) := by
    rw [Nat.div_lt_iff_lt_mul (hpow_pos lsb)]
    calc mv % 2 ^ (n - msb) < 2 ^ (n - msb) := hr
      _ = 2 ^ (n - msb - lsb) * 2 ^ lsb := by rw [← pow_add]; congr 1; omega
  have hmid_eq : ((2 ^ n + mv) / 2 ^ lsb) % 2 ^ (n - msb - lsb)
      = (mv % 2 ^ (n - msb)) / 2 ^ lsb := by
    rw [hval_div, e6, Nat.mul_add_mod, hmdiv, Nat.mul_add_mod, Nat.mod_eq_of_lt hrlt]
  have hlo_eq : mv % 2 ^ lsb = (mv % 2 ^ (n - msb)) % 2 ^ lsb := by
    nth_rewrite 1 [hm2]
    rw [Nat.mul_add_mod]
  -- Step F: reassemble
  have hrsum : ((mv % 2 ^ (n - msb)) / 2 ^ lsb) * 2 ^ lsb + (mv % 2 ^ (n - msb)) % 2 ^ lsb
      = mv % 2 ^ (n - msb) := by
    have h1 := Nat.div_add_mod (mv % 2 ^ (n - msb)) (2 ^ lsb)
    have h2 : ((mv % 2 ^ (n - msb)) / 2 ^ lsb) * 2 ^ lsb
        = 2 ^ lsb * ((mv % 2 ^ (n - msb)) / 2 ^ lsb) := Nat.mul_comm _ _
    omega
  have e7 : (2:Nat) ^ msb * 2 ^ (n - msb - lsb) * 2 ^ lsb = 2 ^ n := by
    rw [← pow_add, ← pow_add]; congr 1; omega
  have e8 : mv / 2 ^ (n - msb) * 2 ^ (n - msb - lsb) * 2 ^ lsb
      = 2 ^ (n - msb) * (mv / 2 ^ (n - msb)) := by
    rw [Nat.mul_assoc, ← pow_add, Nat.mul_comm]; congr 2; omega
  rw [hmid_eq, hlo_eq]
  calc ((2 ^ msb + mv / 2 ^ (n - msb)) * 2 ^ (n - msb - lsb)
        + (mv % 2 ^ (n - msb)) / 2 ^ lsb) * 2 ^ lsb + (mv % 2 ^ (n - msb)) % 2 ^ lsb
      = 2 ^ msb * 2 ^ (n - msb - lsb) * 2 ^ lsb
        + mv / 2 ^ (n - msb) * 2 ^ (n - msb - lsb) * 2 ^ lsb
        + (((mv % 2 ^ (n - msb)) / 2 ^ lsb) * 2 ^ lsb + (mv % 2 ^ (n - msb)) % 2 ^ lsb) := by
        ring
    _ = 2 ^ n + 2 ^ (n - msb) * (mv / 2 ^ (n - msb)) + mv % 2 ^ (n - msb) := by
        rw [e7, e8, hrsum]
    _ = 2 ^ n + mv := by omega

end Jxl

namespace Jxl

/-- **C1**: for every `HybridUintConfig` built by the constructor from
`(split_exponent, msb_in_token, lsb_in_token)` with
`msb_in_token + lsb_in_token <= split_exponent` (so `split_token =
2^split_exponent`), and every 32-bit value, encoding with
`HybridUintConfig::Encode` to `(token, nbits, bits)` and then decoding `token`
with `ANSSymbolReader::ReadHybridUintConfig` on a bit stream that supplies
exactly `nbits` extra bits equal to `bits` yields the original value. -/
theorem hybridUint_decode_encode (se msb lsb value : Nat) (br : BitReader)
    (hcfg : msb + lsb ≤ se) (hval : value < 2 ^ 32)
    (hbits : br.peekBits ((HybridUintConfig.make se msb lsb).encode value).2.1
      = ((HybridUintConfig.make se msb lsb).encode value).2.2) :
    (readHybridUintConfig (HybridUintConfig.make se msb lsb)
      ((HybridUintConfig.make se msb lsb).encode value).1 br).1 = value := by
  by_cases hsmall : value < 2 ^ se
  · simp [HybridUintConfig.encode, HybridUintConfig.make, readHybridUintConfig, hsmall]
  · have hne : value ≠ 0 := by
      have : (0:Nat) < 2 ^ se := Nat.pos_pow_of_pos se (by norm_num)
      omega
    have hvn : 2 ^ Nat.log2 value ≤ value := by
      rw [Nat.log2_eq_log_two]
      exact Nat.pow_log_le_self 2 hne
    have hvn2 : value < 2 ^ (Nat.log2 value + 1) := by
      rw [Nat.log2_eq_log_two]
      exact Nat.lt_pow_succ_log_self (by norm_num) value
    have hsen : se ≤ Nat.log2 value := by
      have h2 : (2:Nat) ^ se < 2 ^ (Nat.log2 value + 1) := by omega
      have := (Nat.pow_lt_pow_iff_right (a := 2) (by norm_num)).mp h2
      omega
    have hn31 : Nat.log2 value < 32 := by
      have h2 : (2:Nat) ^ Nat.log2 value < 2 ^ 32 := by omega
      exact (Nat.pow_lt_pow_iff_right (a := 2) (by norm_num)).mp h2
    have hm : value - 2 ^ Nat.log2 value < 2 ^ Nat.log2 value := by
      have : (2:Nat) ^ (Nat.log2 value + 1) = 2 ^ Nat.log2 value * 2 := by ring
      omega
    have hENC : (HybridUintConfig.make se msb lsb).encode value
        = (2 ^ se + (Nat.log2 value - se) * 2 ^ (msb + lsb)
            + ((value - 2 ^ Nat.log2 value) / 2 ^ (Nat.log2 value - msb)) * 2 ^ lsb
            + (value - 2 ^ Nat.log2 value) % 2 ^ lsb,
          Nat.log2 value - msb - lsb,
          (value / 2 ^ lsb) % 2 ^ (Nat.log2 value - msb - lsb)) := by
      rw [HybridUintConfig.encode]
      simp only [HybridUintConfig.make, if_neg hsmall, FloorLog2Nonzero_eq_log2,
        Nat.shiftLeft_eq, Nat.shiftRight_eq_div_pow, Nat.and_pow_two_sub_one_eq_mod]
    rw [hENC] at hbits ⊢
    simp only at hbits ⊢
    have hfin := hybrid_roundtrip_core se msb lsb (Nat.log2 value)
      (value - 2 ^ Nat.log2 value) br hcfg hsen hn31 hm (by
        have hv : 2 ^ Nat.log2 value + (value - 2 ^ Nat.log2 value) = value := by omega
        rw [hv]
        exact hbits)
    rw [hfin]
    omega

end Jxl

namespace Jxl

/-- Witness for `hybridUint_decode_encode`: config `(4, 2, 0)` and value 20
(token 17, 2 extra bits both zero), on an all-zero bit stream. -/
theorem hybridUint_decode_encode_witness :
    (2 + 0 ≤ 4 ∧ 20 < 2 ^ 32
      ∧ (BitReader.mk (fun _ => false) 0).peekBits
          ((HybridUintConfig.make 4 2 0).encode 20).2.1
        = ((HybridUintConfig.make 4 2 0).encode 20).2.2)
    ∧ (readHybridUintConfig (HybridUintConfig.make 4 2 0)
        ((HybridUintConfig.make 4 2 0).encode 20).1 (BitReader.mk (fun _ => false) 0)).1
      = 20 := by
  exact ⟨⟨by decide, by decide, by decide⟩,
    hybridUint_decode_encode 4 2 0 20 (BitReader.mk (fun _ => false) 0)
      (by decide) (by decide) (by decide)⟩

end Jxl

namespace Jxl

/-- `DecodeUintConfig` (implementation file, lines 268-290): reads a
`split_exponent` field; unless it equals `log_alpha_size`, also reads
`msb_in_token` (failing early if it exceeds `split_exponent`) and
`lsb_in_token`; fails if `lsb_in_token + msb_in_token > split_exponent`;
otherwise constructs the config through the `HybridUintConfig` constructor.
When `split_exponent = log_alpha_size` the C++ leaves `msb = lsb = 0` and the
final check `0 + 0 > split_exponent` is kept verbatim (it never fires). -/
def decodeUintConfig (log_alpha_size : Nat) (br : BitReader) :
    Option (HybridUintConfig × BitReader) :=
  let (split_exponent, br1) := br.readBits (CeilLog2Nonzero (log_alpha_size + 1))
  if split_exponent = log_alpha_size then
    if 0 + 0 > split_exponent then none
    else some (HybridUintConfig.make split_exponent 0 0, br1)
  else
    let (msb_in_token, br2) := br1.readBits (CeilLog2Nonzero (split_exponent + 1))
    if msb_in_token > split_exponent then none
    else
      let (lsb_in_token, br3) :=
        br2.readBits (CeilLog2Nonzero (split_exponent - msb_in_token + 1))
      if lsb_in_token + msb_in_token > split_exponent then none
      else some (HybridUintConfig.make split_exponent msb_in_token lsb_in_token, br3)

/-- **C8**: `DecodeUintConfig` fails exactly when the decoded fields violate
`msb_in_token + lsb_in_token <= split_exponent` (the early
`msb_in_token > split_exponent` exit is subsumed, as `msb + lsb > se` then
holds with the not-yet-read `lsb`); on success the constructed config is the
one built from the decoded fields, satisfies the invariant, and has
`split_token = 2^split_exponent`; when `split_exponent = log_alpha_size` no
msb/lsb fields are read (the cursor moves only past the exponent field) and
both are zero. -/
theorem decodeUintConfig_spec (las : Nat) (br : BitReader) (se msb lsb : Nat)
    (hse : br.peekBits (CeilLog2Nonzero (las + 1)) = se)
    (hmsb : msb = if se = las then 0
      else (br.consume (CeilLog2Nonzero (las + 1))).peekBits (CeilLog2Nonzero (se + 1)))
    (hlsb : lsb = if se = las then 0
      else ((br.consume (CeilLog2Nonzero (las + 1))).consume
          (CeilLog2Nonzero (se + 1))).peekBits (CeilLog2Nonzero (se - msb + 1))) :
    (decodeUintConfig las br = none ↔ msb + lsb > se)
    ∧ (∀ cfg br2, decodeUintConfig las br = some (cfg, br2) →
        cfg = HybridUintConfig.make se msb lsb
        ∧ cfg.msb_in_token + cfg.lsb_in_token ≤ cfg.split_exponent
        ∧ cfg.split_token = 2 ^ cfg.split_exponent)
    ∧ (se = las →
        decodeUintConfig las br
          = some (HybridUintConfig.make las 0 0, br.consume (CeilLog2Nonzero (las + 1)))) := by
  subst hse
  by_cases h : br.peekBits (CeilLog2Nonzero (las + 1)) = las
  · rw [if_pos h] at hmsb hlsb
    subst hmsb hlsb
    simp only [decodeUintConfig, BitReader.readBits, if_pos h, gt_iff_lt,
      Nat.add_zero, Nat.not_lt_zero, if_false]
    refine ⟨by simp, ?_, fun _ => by rw [h]⟩
    rintro cfg br2 hsome
    simp only [Option.some.injEq, Prod.mk.injEq] at hsome
    obtain ⟨hcfg, -⟩ := hsome
    subst hcfg
    refine ⟨by rw [h], by simp [HybridUintConfig.make], by simp [HybridUintConfig.make]⟩
  · rw [if_neg h] at hmsb hlsb
    subst hmsb
    subst hlsb
    simp only [decodeUintConfig, BitReader.readBits, if_neg h]
    by_cases hm : (br.consume (CeilLog2Nonzero (las + 1))).peekBits
        (CeilLog2Nonzero (br.peekBits (CeilLog2Nonzero (las + 1)) + 1))
        > br.peekBits (CeilLog2Nonzero (las + 1))
    · rw [if_pos hm]
      exact ⟨⟨fun _ => by omega, fun _ => rfl⟩,
        fun cfg br2 hsome => absurd hsome (by simp),
        fun hc => absurd hc h⟩
    · rw [if_neg hm]
      by_cases hl : ((br.consume (CeilLog2Nonzero (las + 1))).consume
            (CeilLog2Nonzero (br.peekBits (CeilLog2Nonzero (las + 1)) + 1))).peekBits
            (CeilLog2Nonzero (br.peekBits (CeilLog2Nonzero (las + 1))
              - (br.consume (CeilLog2Nonzero (las + 1))).peekBits
                  (CeilLog2Nonzero (br.peekBits (CeilLog2Nonzero (las + 1)) + 1)) + 1))
          + (br.consume (CeilLog2Nonzero (las + 1))).peekBits
              (CeilLog2Nonzero (br.peekBits (CeilLog2Nonzero (las + 1)) + 1))
          > br.peekBits (CeilLog2Nonzero (las + 1))
      · rw [if_pos hl]
        exact ⟨⟨fun _ => by omega, fun _ => rfl⟩,
          fun cfg br2 hsome => absurd hsome (by simp),
          fun hc => absurd hc h⟩
      · rw [if_neg hl]
        refine ⟨⟨fun hx => absurd hx (by simp), fun hx => absurd hx (by omega)⟩, ?_,
          fun hc => absurd hc h⟩
        rintro cfg br2 hsome
        simp only [Option.some.injEq, Prod.mk.injEq] at hsome
        obtain ⟨hcfg, -⟩ := hsome
        subst hcfg
        refine ⟨rfl, ?_, by simp [HybridUintConfig.make]⟩
        simp only [HybridUintConfig.make]
        omega

/-- Witness for `decodeUintConfig_spec`: `log_alpha_size = 8` on an all-zero
stream decodes `split_exponent = msb = lsb = 0`, a successful decode whose
config satisfies the invariant. -/
theorem decodeUintConfig_spec_witness :
    decodeUintConfig 8 (BitReader.mk (fun _ => false) 0)
      = some (HybridUintConfig.make 0 0 0, BitReader.mk (fun _ => false) 4)
    ∧ ((HybridUintConfig.make 0 0 0).msb_in_token
          + (HybridUintConfig.make 0 0 0).lsb_in_token
        ≤ (HybridUintConfig.make 0 0 0).split_exponent
      ∧ (HybridUintConfig.make 0 0 0).split_token
        = 2 ^ (HybridUintConfig.make 0 0 0).split_exponent) :=
  ⟨rfl,
    ((decodeUintConfig_spec 8 (BitReader.mk (fun _ => false) 0) 0 0 0
        (by decide) (by decide) (by decide)).2.1
      (HybridUintConfig.make 0 0 0) (BitReader.mk (fun _ => false) 4) rfl).2⟩

end Jxl

namespace Jxl

/-- Modelled from the spec: the result of `AliasTable::Lookup`
(`jxl/ans_common.h`, not in src/): the looked-up symbol's value, its frequency
(its histogram count), and the offset of the state residual within the
symbol's frequency range; a well-formed alias table built from counts summing
to `ANS_TAB_SIZE` guarantees `0 < freq <= ANS_TAB_SIZE` and `offset < freq`. -/
structure AliasSymbol where
  value : Nat
  freq : Nat
  offset : Nat

/-- Static configuration of an `ANSSymbolReader` as set up by its constructor
(`jxl/dec_ans.h`, lines 161-197).  The alias tables and the brunsli Huffman
tables live in files not under src/, so table lookups are modelled as opaque
functions: `aliasLookup histo res` stands for
`AliasTable::Lookup(&alias_tables_[histo << log_alpha_size_], res, ...)`, and
`huffRead histo br` stands for the table walk of
`ReadSymbolHuffWithoutRefill` (`jxl/dec_ans.h`, lines 228-242), which consumes
bits and returns a symbol but never touches `state_`. -/
structure ReaderConfig where
  usePrefixCode : Bool
  aliasLookup : Nat → Nat → AliasSymbol
  huffRead : Nat → BitReader → Nat × BitReader
  configs : Nat → HybridUintConfig
  lz77Ctx : Nat
  lz77MinLength : Nat
  lz77Threshold : Nat
  lz77LengthUint : HybridUintConfig
  specialDistances : Nat → Nat
  numSpecialDistances : Nat

/-- Mutable state of an `ANSSymbolReader`: the 32-bit ANS `state_`, the LZ77
ring buffer (a total function read through `kWindowMask`), and the three
`uint32_t` LZ77 counters. -/
structure ReaderState where
  state : Nat
  window : Nat → Nat
  numDecoded : Nat
  numToCopy : Nat
  copyPos : Nat

/-- `ANSSymbolReader::ReadSymbolANSWithoutRefill` (`jxl/dec_ans.h`, lines
199-226): alias lookup on `state_ & (ANS_TAB_SIZE - 1)`, `uint32_t` state
update `freq * (state_ >> ANS_LOG_TAB_SIZE) + offset`, then the branchless
renormalization.  (The prefetch is dropped: it has no architectural effect.) -/
def readSymbolANSWithoutRefill (cfg : ReaderConfig) (histo : Nat) (s : ReaderState)
    (br : BitReader) : Nat × ReaderState × BitReader :=
  let res := s.state &&& (ANS_TAB_SIZE - 1)
  let sym := cfg.aliasLookup histo res
  let state1 := (sym.freq * (s.state >>> ANS_LOG_TAB_SIZE) + sym.offset) % 2 ^ 32
  let newState := ((state1 <<< 16) % 2 ^ 32) ||| br.peekBits 16
  if state1 < 2 ^ 16 then (sym.value, { s with state := newState }, br.consume 16)
  else (sym.value, { s with state := state1 }, br.consume 0)

/-- `ANSSymbolReader::ReadSymbolHuffWithoutRefill` (`jxl/dec_ans.h`, lines
228-242): the brunsli Huffman table walk (modelled opaquely by
`cfg.huffRead`); it never modifies the reader's mutable state. -/
def readSymbolHuffWithoutRefill (cfg : ReaderConfig) (histo : Nat) (s : ReaderState)
    (br : BitReader) : Nat × ReaderState × BitReader :=
  ((cfg.huffRead histo br).1, s, (cfg.huffRead histo br).2)

/-- `ANSSymbolReader::ReadSymbolWithoutRefill` (`jxl/dec_ans.h`, lines
244-251): dispatch on `use_prefix_code_`. -/
def readSymbolWithoutRefill (cfg : ReaderConfig) (histo : Nat) (s : ReaderState)
    (br : BitReader) : Nat × ReaderState × BitReader :=
  if cfg.usePrefixCode then readSymbolHuffWithoutRefill cfg histo s br
  else readSymbolANSWithoutRefill cfg histo s br

/-- **C2**: one ANS-mode symbol decode step is the update
`state_ = freq * (state_ >> ANS_LOG_TAB_SIZE) + offset` followed by exactly one
refill `state_ = (state_ << 16) | next16` (consuming 16 bits) when that update
lands below `2^16`, and no refill otherwise; with alias-table entries coming
from counts summing to `ANS_TAB_SIZE` (so `0 < freq <= ANS_TAB_SIZE` and
`offset < freq`) and `state_` in `[2^16, 2^32)` before the step, `state_` is
again in `[2^16, 2^32)` after it. -/
theorem readSymbolANS_step_invariant (cfg : ReaderConfig) (histo : Nat)
    (s : ReaderState) (br : BitReader)
    (hlo : 2 ^ 16 ≤ s.state) (hhi : s.state < 2 ^ 32)
    (hfreq_pos : 0 < (cfg.aliasLookup histo (s.state &&& (ANS_TAB_SIZE - 1))).freq)
    (hfreq_le : (cfg.aliasLookup histo (s.state &&& (ANS_TAB_SIZE - 1))).freq ≤ ANS_TAB_SIZE)
    (hoff : (cfg.aliasLookup histo (s.state &&& (ANS_TAB_SIZE - 1))).offset
      < (cfg.aliasLookup histo (s.state &&& (ANS_TAB_SIZE - 1))).freq) :
    (readSymbolANSWithoutRefill cfg histo s br
      = (let sym := cfg.aliasLookup histo (s.state &&& (ANS_TAB_SIZE - 1))
         let u := sym.freq * (s.state >>> ANS_LOG_TAB_SIZE) + sym.offset
         if u < 2 ^ 16 then
           (sym.value, { s with state := u * 2 ^ 16 + br.peekBits 16 }, br.consume 16)
         else (sym.value, { s with state := u }, br.consume 0)))
    ∧ 2 ^ 16 ≤ (readSymbolANSWithoutRefill cfg histo s br).2.1.state
    ∧ (readSymbolANSWithoutRefill cfg histo s br).2.1.state < 2 ^ 32 := by
  set sym := cfg.aliasLookup histo (s.state &&& (ANS_TAB_SIZE - 1)) with hsym
  have hdiv : s.state >>> ANS_LOG_TAB_SIZE < 2 ^ 20 := by
    rw [Nat.shiftRight_eq_div_pow]
    have h1 : s.state / 2 ^ ANS_LOG_TAB_SIZE < 2 ^ 20 ↔ s.state < 2 ^ 20 * 2 ^ ANS_LOG_TAB_SIZE :=
      Nat.div_lt_iff_lt_mul (Nat.pos_pow_of_pos _ (by norm_num))
    rw [h1]
    calc s.state < 2 ^ 32 := hhi
      _ ≤ 2 ^ 20 * 2 ^ ANS_LOG_TAB_SIZE := by norm_num [ANS_LOG_TAB_SIZE]
  have hdiv_lo : 2 ^ 4 ≤ s.state >>> ANS_LOG_TAB_SIZE := by
    rw [Nat.shiftRight_eq_div_pow]
    have h1 : 2 ^ 4 ≤ s.state / 2 ^ ANS_LOG_TAB_SIZE ↔ 2 ^ 4 * 2 ^ ANS_LOG_TAB_SIZE ≤ s.state :=
      (Nat.le_div_iff_mul_le (Nat.pos_pow_of_pos _ (by norm_num)))
    rw [h1]
    calc (2:Nat) ^ 4 * 2 ^ ANS_LOG_TAB_SIZE = 2 ^ 16 := by norm_num [ANS_LOG_TAB_SIZE]
      _ ≤ s.state := hlo
  have hfle : sym.freq ≤ 2 ^ 12 := by
    have : ANS_TAB_SIZE = 2 ^ 12 := by norm_num [ANS_TAB_SIZE, ANS_LOG_TAB_SIZE]
    omega
  have hu_lt : sym.freq * (s.state >>> ANS_LOG_TAB_SIZE) + sym.offset < 2 ^ 32 := by
    have h1 : sym.freq * (s.state >>> ANS_LOG_TAB_SIZE) ≤ 2 ^ 12 * (2 ^ 20 - 1) :=
      Nat.mul_le_mul hfle (by omega)
    have h2 : (2:Nat) ^ 12 * (2 ^ 20 - 1) = 2 ^ 32 - 2 ^ 12 := by norm_num
    have h3 : sym.offset < 2 ^ 12 := by omega
    have h4 : (2:Nat) ^ 12 ≤ 2 ^ 32 := by norm_num
    omega
  have hu_pos : 2 ^ 4 ≤ sym.freq * (s.state >>> ANS_LOG_TAB_SIZE) + sym.offset := by
    have h1 : 1 * (2 ^ 4) ≤ sym.freq * (s.state >>> ANS_LOG_TAB_SIZE) :=
      Nat.mul_le_mul hfreq_pos hdiv_lo
    omega
  set u := sym.freq * (s.state >>> ANS_LOG_TAB_SIZE) + sym.offset with hu
  have hmod : u % 2 ^ 32 = u := Nat.mod_eq_of_lt hu_lt
  have hpeek : br.peekBits 16 < 2 ^ 16 := br.peekBits_lt 16
  have hsh : u < 2 ^ 16 → (u <<< 16) % 2 ^ 32 = u * 2 ^ 16 := by
    intro hsmall
    rw [Nat.shiftLeft_eq]
    apply Nat.mod_eq_of_lt
    have h1 : u ≤ 2 ^ 16 - 1 := by omega
    have h2 : u * 2 ^ 16 ≤ (2 ^ 16 - 1) * 2 ^ 16 := Nat.mul_le_mul_right _ h1
    have h3 : ((2:Nat) ^ 16 - 1) * 2 ^ 16 = 2 ^ 32 - 2 ^ 16 := by norm_num
    have h4 : (0:Nat) < 2 ^ 16 := by norm_num
    omega
  have hEQ : readSymbolANSWithoutRefill cfg histo s br
      = (if u < 2 ^ 16 then
          (sym.value, { s with state := u * 2 ^ 16 + br.peekBits 16 }, br.consume 16)
        else (sym.value, { s with state := u }, br.consume 0)) := by
    rw [readSymbolANSWithoutRefill]
    simp only [← hsym, ← hu, hmod]
    by_cases hsmall : u < 2 ^ 16
    · rw [if_pos hsmall, if_pos hsmall, hsh hsmall, or_disjoint u hpeek]
    · rw [if_neg hsmall, if_neg hsmall]
  refine ⟨hEQ, ?_, ?_⟩ <;> rw [hEQ] <;> by_cases hsmall : u < 2 ^ 16
  · rw [if_pos hsmall]
    simp only
    calc (2:Nat) ^ 16 = 1 * 2 ^ 16 := by ring
      _ ≤ u * 2 ^ 16 := Nat.mul_le_mul_right _ (by omega)
      _ ≤ u * 2 ^ 16 + br.peekBits 16 := Nat.le_add_right _ _
  · rw [if_neg hsmall]
    simp only
    omega
  · rw [if_pos hsmall]
    simp only
    have h1 : u ≤ 2 ^ 16 - 1 := by omega
    have h2 : u * 2 ^ 16 ≤ (2 ^ 16 - 1) * 2 ^ 16 := Nat.mul_le_mul_right _ h1
    have h3 : ((2:Nat) ^ 16 - 1) * 2 ^ 16 = 2 ^ 32 - 2 ^ 16 := by norm_num
    have h4 : (0:Nat) < 2 ^ 16 := by norm_num
    omega
  · rw [if_neg hsmall]
    simp only
    omega

/-- Witness for `readSymbolANS_step_invariant`: a degenerate configuration
whose alias table always answers `(value 3, freq 7, offset 2)`, with
`state_ = 2^16` (update `7*16+2 = 114`, refilled to `114 * 2^16`). -/
theorem readSymbolANS_step_invariant_witness :
    (2 ^ 16 ≤ 2 ^ 16 ∧ (2:Nat) ^ 16 < 2 ^ 32 ∧ (0:Nat) < 7 ∧ 7 ≤ ANS_TAB_SIZE ∧ (2:Nat) < 7)
    ∧ 2 ^ 16 ≤ (readSymbolANSWithoutRefill
        (ReaderConfig.mk false (fun _ _ => AliasSymbol.mk 3 7 2) (fun _ br => (0, br))
          (fun _ => HybridUintConfig.make 4 2 0) 0 0 0 (HybridUintConfig.make 0 0 0)
          (fun _ => 0) 0)
        0 (ReaderState.mk (2 ^ 16) (fun _ => 0) 0 0 0)
        (BitReader.mk (fun _ => false) 0)).2.1.state :=
  ⟨⟨by decide, by decide, by decide, by decide, by decide⟩,
    (readSymbolANS_step_invariant
      (ReaderConfig.mk false (fun _ _ => AliasSymbol.mk 3 7 2) (fun _ br => (0, br))
        (fun _ => HybridUintConfig.make 4 2 0) 0 0 0 (HybridUintConfig.make 0 0 0)
        (fun _ => 0) 0)
      0 (ReaderState.mk (2 ^ 16) (fun _ => 0) 0 0 0)
      (BitReader.mk (fun _ => false) 0)
      (by decide) (by decide) (by decide) (by decide) (by decide)).2.1⟩

end Jxl

namespace Jxl

/-- The three distance-resolution lines of `ReadHybridUintClustered`
(`jxl/dec_ans.h`, lines 308-318): special-distance mapping, then the two
upper clamps, in source order. -/
def resolveDistance (cfg : ReaderConfig) (numDecoded rawd : Nat) : Nat :=
  let distance0 := if rawd < cfg.numSpecialDistances then cfg.specialDistances rawd
    else rawd + 1 - cfg.numSpecialDistances
  let distance1 := if distance0 > numDecoded then numDecoded else distance0
  if distance1 > kWindowSize then kWindowSize else distance1

/-- `ANSSymbolReader::ReadHybridUintClustered` (`jxl/dec_ans.h`, lines
290-325).  The C++ tail-recursion after a length token gets explicit fuel
(each recursive call consumes one unit; `fuel = 0` returns a dummy and is never
reached in the theorems below, which supply enough fuel).  The `uint32_t`
counters wrap at `2^32`; ring-buffer indices are masked with `kWindowMask`. -/
def readHybridUintClustered (cfg : ReaderConfig) :
    Nat → Nat → ReaderState → BitReader → Nat × ReaderState × BitReader
  | 0, _, s, br => (0, s, br)
  | fuel + 1, ctx, s, br =>
    if s.numToCopy > 0 then
      let ret := s.window (s.copyPos &&& kWindowMask)
      (ret,
        { s with
          copyPos := (s.copyPos + 1) % 2 ^ 32
          numToCopy := s.numToCopy - 1
          window := fun i => if i = s.numDecoded &&& kWindowMask then ret else s.window i
          numDecoded := (s.numDecoded + 1) % 2 ^ 32 },
        br)
    else
      let tres := readSymbolWithoutRefill cfg ctx s br
      let token := tres.1
      let s1 := tres.2.1
      let br1 := tres.2.2
      if token ≥ cfg.lz77Threshold then
        let lres := readHybridUintConfig cfg.lz77LengthUint (token - cfg.lz77Threshold) br1
        let numToCopy := (lres.1 + cfg.lz77MinLength) % 2 ^ 32
        let dres := readSymbolWithoutRefill cfg cfg.lz77Ctx s1 lres.2
        let s2 := dres.2.1
        let rres := readHybridUintConfig (cfg.configs cfg.lz77Ctx) dres.1 dres.2.2
        let distance := resolveDistance cfg s2.numDecoded rres.1
        readHybridUintClustered cfg fuel ctx
          { s2 with numToCopy := numToCopy, copyPos := s2.numDecoded - distance } rres.2
      else
        let rres := readHybridUintConfig (cfg.configs ctx) token br1
        (rres.1,
          { s1 with
            window := fun i => if i = s1.numDecoded &&& kWindowMask then rres.1 else s1.window i
            numDecoded := (s1.numDecoded + 1) % 2 ^ 32 },
          rres.2)

/-- Iterating `ReadHybridUintClustered`, collecting the returned values. -/
def readOutputs (cfg : ReaderConfig) (fuel ctx : Nat) :
    Nat → ReaderState → BitReader → List Nat × ReaderState × BitReader
  | 0, s, br => ([], s, br)
  | k + 1, s, br =>
    let one := readHybridUintClustered cfg fuel ctx s br
    let rest := readOutputs cfg fuel ctx k one.2.1 one.2.2
    (one.1 :: rest.1, rest.2.1, rest.2.2)

theorem mask_id {i : Nat} (h : i < kWindowSize) : i &&& kWindowMask = i := by
  have h1 : i &&& kWindowMask = i % 2 ^ 20 := by
    have : kWindowMask = 2 ^ 20 - 1 := by norm_num [kWindowMask, kWindowSize]
    rw [this, Nat.and_pow_two_sub_one_eq_mod]
  rw [h1]
  exact Nat.mod_eq_of_lt (by simpa [kWindowSize] using h)

end Jxl

namespace Jxl

/-- State evolution along a pending LZ77 copy run: from a state `s` that is
`t` copy steps into a run of original length `L` and distance `d` over base
state `s0`, `k` further calls stay inside the run, consume no bits, and output
the `d`-periodic extension of the pre-run window contents. -/
theorem copyRun (cfg : ReaderConfig) (fuel ctx : Nat) (s0 : ReaderState) (d L : Nat)
    (hd : 0 < d) (hdle : d ≤ s0.numDecoded) (hwrap : s0.numDecoded + L ≤ kWindowSize) :
    ∀ k t, t + k ≤ L → ∀ (s : ReaderState) (br : BitReader),
      s.numToCopy = L - t →
      s.copyPos = s0.numDecoded - d + t →
      s.numDecoded = s0.numDecoded + t →
      (∀ i, i < s0.numDecoded + t → s.window i
        = if i < s0.numDecoded then s0.window i
          else s0.window (s0.numDecoded - d + (i - s0.numDecoded) % d)) →
      (readOutputs cfg (fuel + 1) ctx k s br).2.2 = br
      ∧ ∀ j, j < k → (readOutputs cfg (fuel + 1) ctx k s br).1.getD j 0
          = s0.window (s0.numDecoded - d + (t + j) % d) := by
  have hkw : kWindowSize = 1048576 := by norm_num [kWindowSize]
  have h32 : (2:Nat) ^ 32 = 4294967296 := by norm_num
  intro k
  induction k with
  | zero =>
    intro t ht s br _ _ _ _
    exact ⟨rfl, fun j hj => absurd hj (by omega)⟩
  | succ k ih =>
    intro t ht s br hnc hcp hnd hwin
    have hpos : s.numToCopy > 0 := by omega
    have hcpo : s.copyPos < kWindowSize := by omega
    have hndo : s.numDecoded < kWindowSize := by omega
    -- the value this step produces
    have hv : s.window (s.copyPos &&& kWindowMask)
        = s0.window (s0.numDecoded - d + t % d) := by
      rw [mask_id hcpo, hcp]
      rw [hwin (s0.numDecoded - d + t) (by omega)]
      by_cases htd : t < d
      · rw [if_pos (by omega), Nat.mod_eq_of_lt htd]
      · rw [if_neg (by omega)]
        have h1 : s0.numDecoded - d + t - s0.numDecoded = t - d := by omega
        rw [h1, ← Nat.mod_eq_sub_mod (by omega)]
    -- one unfolding of the iteration
    rw [readOutputs]
    simp only [readHybridUintClustered, if_pos hpos]
    set s' : ReaderState :=
      { s with
        copyPos := (s.copyPos + 1) % 2 ^ 32
        numToCopy := s.numToCopy - 1
        window := fun i => if i = s.numDecoded &&& kWindowMask
          then s.window (s.copyPos &&& kWindowMask) else s.window i
        numDecoded := (s.numDecoded + 1) % 2 ^ 32 } with hs'
    have hmasknd : s.numDecoded &&& kWindowMask = s0.numDecoded + t := by
      rw [mask_id hndo, hnd]
    have ihs := ih (t + 1) (by omega) s' br
      (by rw [hs']; simp only; omega)
      (by rw [hs']; simp only; omega)
      (by rw [hs']; simp only; omega)
      (by
        intro i hi
        rw [hs']
        simp only [hmasknd]
        by_cases hieq : i = s0.numDecoded + t
        · rw [if_pos hieq, hieq, if_neg (by omega), hv]
          have h1 : s0.numDecoded + t - s0.numDecoded = t := by omega
          rw [h1]
        · rw [if_neg hieq]
          exact hwin i (by omega))
    refine ⟨ihs.1, ?_⟩
    intro j hj
    match j with
    | 0 =>
      simp only [List.getD_cons_zero]
      rw [hv]
      have h1 : (t + 0) % d = t % d := by rw [Nat.add_zero]
      rw [h1]
    | j + 1 =>
      simp only [List.getD_cons_succ]
      have h2 := ihs.2 j (by omega)
      rw [h2]
      have h3 : t + 1 + j = t + (j + 1) := by omega
      rw [h3]

/-- **C4**: with a pending copy run (`num_to_copy_ > 0`),
`ReadHybridUintClustered` returns the ring-buffer value at
`copy_pos_ & kWindowMask`, increments `copy_pos_` and `num_decoded_`
(mod `2^32`), writes the returned value into the ring buffer at the position
of the newly decoded value, decrements `num_to_copy_`, and consumes no bits;
consequently, for a run set up from a length/distance pair `(L, d)` (so
`num_to_copy_ = L`, `copy_pos_ = num_decoded_ - d`), the first `k ≤ L`
subsequent calls consume no bits and produce exactly the previously decoded
values starting at offset `num_decoded_ - d`, extended `d`-periodically — in
particular `d = 1` repeats the immediately preceding value and `d < L`
overlapping copies read values written earlier in the same run. -/
theorem readHybridUintClustered_lz77_copy (cfg : ReaderConfig) (fuel ctx : Nat)
    (s : ReaderState) (br : BitReader) (d L k : Nat)
    (hL : s.numToCopy = L) (hLpos : 0 < L) (hd : 0 < d) (hdle : d ≤ s.numDecoded)
    (hcp : s.copyPos = s.numDecoded - d) (hwrap : s.numDecoded + L ≤ kWindowSize)
    (hk : k ≤ L) :
    (readHybridUintClustered cfg (fuel + 1) ctx s br
      = (s.window (s.copyPos &&& kWindowMask),
        { s with
          copyPos := (s.copyPos + 1) % 2 ^ 32
          numToCopy := s.numToCopy - 1
          window := fun i => if i = s.numDecoded &&& kWindowMask
            then s.window (s.copyPos &&& kWindowMask) else s.window i
          numDecoded := (s.numDecoded + 1) % 2 ^ 32 },
        br))
    ∧ (readOutputs cfg (fuel + 1) ctx k s br).2.2 = br
    ∧ ∀ j, j < k → (readOutputs cfg (fuel + 1) ctx k s br).1.getD j 0
        = s.window (s.numDecoded - d + j % d) := by
  have hstep : readHybridUintClustered cfg (fuel + 1) ctx s br
      = (s.window (s.copyPos &&& kWindowMask),
        { s with
          copyPos := (s.copyPos + 1) % 2 ^ 32
          numToCopy := s.numToCopy - 1
          window := fun i => if i = s.numDecoded &&& kWindowMask
            then s.window (s.copyPos &&& kWindowMask) else s.window i
          numDecoded := (s.numDecoded + 1) % 2 ^ 32 },
        br) := by
    simp only [readHybridUintClustered, if_pos (by omega : s.numToCopy > 0)]
  have hrun := copyRun cfg fuel ctx s d L hd hdle hwrap k 0 (by omega) s br
    (by omega) (by omega) rfl
    (by intro i hi; rw [if_pos (by omega)])
  refine ⟨hstep, hrun.1, ?_⟩
  intro j hj
  have h1 := hrun.2 j hj
  have h2 : (0 + j) % d = j % d := by rw [Nat.zero_add]
  rw [h1, h2]

/-- Witness for `readHybridUintClustered_lz77_copy`: an overlapping copy with
`d = 2`, `L = 5` from a window holding `10, 20` at positions `3, 4`
(`num_decoded_ = 5`): the outputs are `20, 10, 20, 10, 20` and no bits are
consumed. -/
theorem readHybridUintClustered_lz77_copy_witness :
    ((ReaderState.mk 0 (fun i => if i = 3 then 10 else if i = 4 then 20 else 0) 5 5 3).numToCopy
        = 5
      ∧ (0:Nat) < 5 ∧ (0:Nat) < 2)
    ∧ (readOutputs
        (ReaderConfig.mk true (fun _ _ => AliasSymbol.mk 0 1 0) (fun _ br => (0, br))
          (fun _ => HybridUintConfig.make 4 2 0) 0 0 1000 (HybridUintConfig.make 0 0 0)
          (fun _ => 0) 0)
        1 0 5
        (ReaderState.mk 0 (fun i => if i = 3 then 10 else if i = 4 then 20 else 0) 5 5 3)
        (BitReader.mk (fun _ => false) 0)).1.getD 4 0
      = (ReaderState.mk 0 (fun i => if i = 3 then 10 else if i = 4 then 20 else 0) 5 5 3).window
          (5 - 2 + 4 % 2) :=
  ⟨⟨rfl, by decide, by decide⟩,
    (readHybridUintClustered_lz77_copy
      (ReaderConfig.mk true (fun _ _ => AliasSymbol.mk 0 1 0) (fun _ br => (0, br))
        (fun _ => HybridUintConfig.make 4 2 0) 0 0 1000 (HybridUintConfig.make 0 0 0)
        (fun _ => 0) 0)
      0 0
      (ReaderState.mk 0 (fun i => if i = 3 then 10 else if i = 4 then 20 else 0) 5 5 3)
      (BitReader.mk (fun _ => false) 0) 2 5 5
      rfl (by decide) (by decide) (by decide) (by decide) (by decide) (by decide)).2.2
      4 (by decide)⟩

end Jxl

namespace Jxl

/-- `kSpecialDistances` (`jxl/dec_ans.h`, lines 135-150): the 120 WebP special
distance codes, as `(column offset, row offset)` pairs. -/
def kSpecialDistances : List (Int × Int) :=
  [(0, 1),  (1, 0),  (1, 1),  (-1, 1), (0, 2),  (2, 0),  (1, 2),  (-1, 2),
   (2, 1),  (-2, 1), (2, 2),  (-2, 2), (0, 3),  (3, 0),  (1, 3),  (-1, 3),
   (3, 1),  (-3, 1), (2, 3),  (-2, 3), (3, 2),  (-3, 2), (0, 4),  (4, 0),
   (1, 4),  (-1, 4), (4, 1),  (-4, 1), (3, 3),  (-3, 3), (2, 4),  (-2, 4),
   (4, 2),  (-4, 2), (0, 5),  (3, 4),  (-3, 4), (4, 3),  (-4, 3), (5, 0),
   (1, 5),  (-1, 5), (5, 1),  (-5, 1), (2, 5),  (-2, 5), (5, 2),  (-5, 2),
   (4, 4),  (-4, 4), (3, 5),  (-3, 5), (5, 3),  (-5, 3), (0, 6),  (6, 0),
   (1, 6),  (-1, 6), (6, 1),  (-6, 1), (2, 6),  (-2, 6), (6, 2),  (-6, 2),
   (4, 5),  (-4, 5), (5, 4),  (-5, 4), (3, 6),  (-3, 6), (6, 3),  (-6, 3),
   (0, 7),  (7, 0),  (1, 7),  (-1, 7), (5, 5),  (-5, 5), (7, 1),  (-7, 1),
   (4, 6),  (-4, 6), (6, 4),  (-6, 4), (2, 7),  (-2, 7), (7, 2),  (-7, 2),
   (3, 7),  (-3, 7), (7, 3),  (-7, 3), (5, 6),  (-5, 6), (6, 5),  (-6, 5),
   (8, 0),  (4, 7),  (-4, 7), (7, 4),  (-7, 4), (8, 1),  (8, 2),  (6, 6),
   (-6, 6), (8, 3),  (5, 7),  (-5, 7), (7, 5),  (-7, 5), (8, 4),  (6, 7),
   (-6, 7), (7, 6),  (-7, 6), (8, 5),  (7, 7),  (-7, 7), (8, 6),  (8, 7)]

/-- The constructor loop filling `special_distances_` (`jxl/dec_ans.h`, lines
191-196): entry `i` is `kSpecialDistances[i][0] + distance_multiplier *
kSpecialDistances[i][1]`, clamped below at 1 (`int` arithmetic). -/
def specialDistanceEntry (distanceMultiplier i : Nat) : Nat :=
  let p := kSpecialDistances.getD i (0, 0)
  let dist : Int := p.1 + (distanceMultiplier : Int) * p.2
  if dist < 1 then 1 else dist.toNat

/-- `num_special_distances_` as set by the constructor (`jxl/dec_ans.h`,
lines 189-190). -/
def numSpecialForMultiplier (distanceMultiplier : Nat) : Nat :=
  if distanceMultiplier = 0 then 0 else kNumSpecialDistances

theorem specialDistanceEntry_pos (mult i : Nat) : 1 ≤ specialDistanceEntry mult i := by
  rw [specialDistanceEntry]
  by_cases h : ((kSpecialDistances.getD i (0, 0)).1
      + (mult : Int) * (kSpecialDistances.getD i (0, 0)).2) < 1
  · simp only [h, if_true]
    omega
  · simp only [h, if_false]
    omega

/-- **C5 (amended)**: in the length-token branch, the raw distance code is
mapped through the special-distance table when below `num_special_distances_`
(entry `i` being `kSpecialDistances[i][0] + distance_multiplier *
kSpecialDistances[i][1]` clamped to at least 1, so raw code 0 with
`distance_multiplier > 0` maps to the scaled `(0,1)` offset, i.e. the
multiplier itself), and is `raw - num_special + 1` otherwise; the result is
then clamped above by `num_decoded_` and by `2^20` — hence it lies in
`[1, min(num_decoded_, 2^20)]` whenever `num_decoded_ >= 1`, while for
`num_decoded_ = 0` it collapses to 0 — and the branch stores
`num_to_copy_ = length + min_length` and `copy_pos_ = num_decoded_ - distance`. -/
theorem lz77_distance_resolution (cfg : ReaderConfig) (mult : Nat)
    (hsd : cfg.specialDistances = specialDistanceEntry mult)
    (hns : cfg.numSpecialDistances = numSpecialForMultiplier mult) :
    (∀ nd rawd, rawd < cfg.numSpecialDistances →
      resolveDistance cfg nd rawd = min (min (specialDistanceEntry mult rawd) nd) kWindowSize)
    ∧ (∀ nd rawd, ¬ rawd < cfg.numSpecialDistances →
      resolveDistance cfg nd rawd
        = min (min (rawd + 1 - cfg.numSpecialDistances) nd) kWindowSize)
    ∧ (0 < mult → specialDistanceEntry mult 0 = mult)
    ∧ (∀ nd rawd, 1 ≤ nd →
      1 ≤ resolveDistance cfg nd rawd ∧ resolveDistance cfg nd rawd ≤ min nd kWindowSize)
    ∧ (∀ fuel ctx s br token s1 br1 lenv br2 dtok s2 br3 rawd br4,
        s.numToCopy = 0 →
        readSymbolWithoutRefill cfg ctx s br = (token, s1, br1) →
        token ≥ cfg.lz77Threshold →
        readHybridUintConfig cfg.lz77LengthUint (token - cfg.lz77Threshold) br1
          = (lenv, br2) →
        readSymbolWithoutRefill cfg cfg.lz77Ctx s1 br2 = (dtok, s2, br3) →
        readHybridUintConfig (cfg.configs cfg.lz77Ctx) dtok br3 = (rawd, br4) →
        readHybridUintClustered cfg (fuel + 1) ctx s br
          = readHybridUintClustered cfg fuel ctx
              { s2 with
                numToCopy := (lenv + cfg.lz77MinLength) % 2 ^ 32
                copyPos := s2.numDecoded - resolveDistance cfg s2.numDecoded rawd } br4) := by
  have hclamp : ∀ nd rawd,
      resolveDistance cfg nd rawd
        = min (min (if rawd < cfg.numSpecialDistances then cfg.specialDistances rawd
            else rawd + 1 - cfg.numSpecialDistances) nd) kWindowSize := by
    intro nd rawd
    rw [resolveDistance]
    simp only [gt_iff_lt, Nat.min_def]
    split_ifs <;> omega
  refine ⟨?_, ?_, ?_, ?_, ?_⟩
  · intro nd rawd h
    rw [hclamp nd rawd, if_pos h, hsd]
  · intro nd rawd h
    rw [hclamp nd rawd, if_neg h]
  · intro hmult
    rw [specialDistanceEntry]
    simp only [kSpecialDistances, List.getD_cons_zero]
    have h1 : ¬ ((0:Int) + (mult : Int) * 1 < 1) := by omega
    rw [if_neg h1]
    omega
  · intro nd rawd hnd
    have h1 : 1 ≤ (if rawd < cfg.numSpecialDistances then cfg.specialDistances rawd
        else rawd + 1 - cfg.numSpecialDistances) := by
      split
      · rw [hsd]
        exact specialDistanceEntry_pos mult rawd
      · omega
    have hw : 1 ≤ kWindowSize := by norm_num [kWindowSize]
    constructor
    · rw [hclamp nd rawd]
      omega
    · rw [hclamp nd rawd]
      omega
  · intro fuel ctx s br token s1 br1 lenv br2 dtok s2 br3 rawd br4
      hnc h1 hth h2 h3 h4
    simp only [readHybridUintClustered, if_neg (by omega : ¬ s.numToCopy > 0),
      h1, h2, h3, h4, ge_iff_le, if_pos hth]

end Jxl

namespace Jxl

/-- A concrete reader configuration with `distance_multiplier = 1` (special
distances enabled), used by the LZ77 distance theorems. -/
def sampleLZConfig : ReaderConfig :=
  ReaderConfig.mk true (fun _ _ => AliasSymbol.mk 0 1 0) (fun _ br => (0, br))
    (fun _ => HybridUintConfig.make 0 0 0) 1 3 224 (HybridUintConfig.make 0 0 0)
    (specialDistanceEntry 1) (numSpecialForMultiplier 1)

/-- Counterexample to **C5** as stated: when `num_decoded_ = 0` (a length
token as the very first decoded symbol), the code's two upper clamps drive the
distance to 0, so the resulting distance does not lie in the claimed range
`[1, min(num_decoded_, 2^20)]` (empty here): the clamp to a lower bound of 1
asserted by the claim does not happen. -/
theorem lz77_distance_clamp_counterexample :
    resolveDistance sampleLZConfig 0 0 = 0
    ∧ ¬ (1 ≤ resolveDistance sampleLZConfig 0 0
        ∧ resolveDistance sampleLZConfig 0 0 ≤ min 0 kWindowSize) := by
  refine ⟨by decide, ?_⟩
  intro h
  have h1 : resolveDistance sampleLZConfig 0 0 = 0 := by decide
  omega

/-- Witness for `lz77_distance_resolution`: with `distance_multiplier = 1`,
raw code 0 maps to special distance 1, and with `num_decoded_ = 5` the
resolved distance is in `[1, min(5, 2^20)]`. -/
theorem lz77_distance_resolution_witness :
    ((0:Nat) < 1 → specialDistanceEntry 1 0 = 1)
    ∧ ((1:Nat) ≤ 5 →
      1 ≤ resolveDistance sampleLZConfig 5 0
      ∧ resolveDistance sampleLZConfig 5 0 ≤ min 5 kWindowSize) :=
  ⟨fun h => by
      have := (lz77_distance_resolution sampleLZConfig 1 rfl rfl).2.2.1 h
      simpa using this,
    fun h => (lz77_distance_resolution sampleLZConfig 1 rfl rfl).2.2.2.1 5 0 h⟩

end Jxl

namespace Jxl

/-- The `ANSSymbolReader` constructor's state setup (`jxl/dec_ans.h`, lines
165-197): ANS mode reads 32 raw bits into `state_`; prefix mode sets
`state_ = ANS_SIGNATURE << 16`.  The C++ leaves the LZ77 window uninitialized
(modelled as zeros); the counters start at 0 by member initialization. -/
def initReaderState (cfg : ReaderConfig) (br : BitReader) : ReaderState × BitReader :=
  if cfg.usePrefixCode then
    (ReaderState.mk (ANS_SIGNATURE <<< 16) (fun _ => 0) 0 0 0, br)
  else
    (ReaderState.mk (br.peekBits 32) (fun _ => 0) 0 0 0, br.consume 32)

/-- `ANSSymbolReader::CheckANSFinalState` (`jxl/dec_ans.h`, line 259). -/
def checkANSFinalState (s : ReaderState) : Bool := s.state == ANS_SIGNATURE <<< 16

/-- A sequence of `ReadHybridUintClustered` calls over the given clustered
contexts, threading reader state and bit stream. -/
def runHybridReads (cfg : ReaderConfig) (fuel : Nat) :
    List Nat → ReaderState → BitReader → ReaderState × BitReader
  | [], s, br => (s, br)
  | ctx :: rest, s, br =>
    let one := readHybridUintClustered cfg fuel ctx s br
    runHybridReads cfg fuel rest one.2.1 one.2.2

theorem readHybridUintClustered_prefix_state (cfg : ReaderConfig)
    (hpre : cfg.usePrefixCode = true) :
    ∀ fuel ctx s br, (readHybridUintClustered cfg fuel ctx s br).2.1.state = s.state := by
  intro fuel
  induction fuel with
  | zero => intro ctx s br; rfl
  | succ fuel ih =>
    intro ctx s br
    rw [readHybridUintClustered]
    by_cases hc : s.numToCopy > 0
    · rw [if_pos hc]
    · rw [if_neg hc]
      simp only [readSymbolWithoutRefill, hpre, if_true, readSymbolHuffWithoutRefill]
      by_cases ht : (cfg.huffRead ctx br).1 ≥ cfg.lz77Threshold
      · simp only [ht, if_true, ih]
      · simp only [ht, if_false]

/-- **C10**: in prefix-code mode the constructor sets
`state_ = ANS_SIGNATURE << 16`; `ReadSymbolHuffWithoutRefill` (and hence any
sequence of `ReadHybridUintClustered` calls built on it) never modifies
`state_`; therefore for every prefix-mode reader and every input bit stream,
`CheckANSFinalState` returns true — the final-state check cannot detect
corruption on the prefix path. -/
theorem prefix_mode_final_state (cfg : ReaderConfig) (hpre : cfg.usePrefixCode = true) :
    (∀ histo s br, (readSymbolHuffWithoutRefill cfg histo s br).2.1 = s)
    ∧ (∀ br, (initReaderState cfg br).1.state = ANS_SIGNATURE <<< 16)
    ∧ (∀ fuel ops br,
        checkANSFinalState
          (runHybridReads cfg fuel ops (initReaderState cfg br).1
            (initReaderState cfg br).2).1 = true) := by
  have hinit : ∀ br : BitReader, (initReaderState cfg br).1.state = ANS_SIGNATURE <<< 16 := by
    intro br
    rw [initReaderState, if_pos hpre]
  refine ⟨fun _ _ _ => rfl, hinit, ?_⟩
  intro fuel ops br
  have hrun : ∀ (l : List Nat) (s : ReaderState) (b : BitReader),
      (runHybridReads cfg fuel l s b).1.state = s.state := by
    intro l
    induction l with
    | nil => intro s b; rfl
    | cons c rest ih =>
      intro s b
      rw [runHybridReads]
      rw [ih, readHybridUintClustered_prefix_state cfg hpre]
  rw [checkANSFinalState, hrun, hinit]
  exact beq_self_eq_true _

/-- Witness for `prefix_mode_final_state`: a concrete prefix-mode reader
(its Huffman walk always yields symbol 7 and consumes one bit) passes the
final-state check after two decode calls on an all-ones stream. -/
theorem prefix_mode_final_state_witness :
    checkANSFinalState
      (runHybridReads
        (ReaderConfig.mk true (fun _ _ => AliasSymbol.mk 0 1 0)
          (fun _ br => (7, br.consume 1)) (fun _ => HybridUintConfig.make 4 2 0)
          0 3 224 (HybridUintConfig.make 0 0 0) (fun _ => 0) 0)
        2 [0, 0]
        (initReaderState
          (ReaderConfig.mk true (fun _ _ => AliasSymbol.mk 0 1 0)
            (fun _ br => (7, br.consume 1)) (fun _ => HybridUintConfig.make 4 2 0)
            0 3 224 (HybridUintConfig.make 0 0 0) (fun _ => 0) 0)
          (BitReader.mk (fun _ => true) 0)).1
        (initReaderState
          (ReaderConfig.mk true (fun _ _ => AliasSymbol.mk 0 1 0)
            (fun _ br => (7, br.consume 1)) (fun _ => HybridUintConfig.make 4 2 0)
            0 3 224 (HybridUintConfig.make 0 0 0) (fun _ => 0) 0)
          (BitReader.mk (fun _ => true) 0)).2).1 = true :=
  (prefix_mode_final_state
    (ReaderConfig.mk true (fun _ _ => AliasSymbol.mk 0 1 0)
      (fun _ br => (7, br.consume 1)) (fun _ => HybridUintConfig.make 4 2 0)
      0 3 224 (HybridUintConfig.make 0 0 0) (fun _ => 0) 0)
    rfl).2.2 2 [0, 0] (BitReader.mk (fun _ => true) 0)

end Jxl

namespace Jxl

/-- `DecodeVarLenUint8` (implementation file, lines 35-46): 1-bit presence
flag, then a 3-bit exponent `nbits`, then `nbits` payload bits. -/
def decodeVarLenUint8 (br : BitReader) : Nat × BitReader :=
  let b := br.readBits 1
  if b.1 = 1 then
    let n := b.2.readBits 3
    if n.1 = 0 then (1, n.2)
    else
      let v := n.2.readBits n.1
      (v.1 + 2 ^ n.1, v.2)
  else (0, b.2)

/-- Modelled from the spec: `CreateFlatHistogram` from `jxl/ans_common.h` (not
in src/): a flat histogram over `length` symbols summing exactly to `total`
(each entry `total / length`, the first `total % length` entries one more). -/
def CreateFlatHistogram (length total : Nat) : List Int :=
  (List.range length).map fun i =>
    if i < total % length then ((total / length : Nat) : Int) + 1
    else ((total / length : Nat) : Int)

/-- Modelled from the spec: `GetPopulationCountPrecision` from
`jxl/ans_params.h` (not in src/): the number of extra mantissa bits stored for
a population count of the given log-count under `shift`, i.e.
`min(logcount, shift - (ANS_LOG_TAB_SIZE - logcount) / 2)` clamped below at 0
— in particular never more than `logcount` bits. -/
def GetPopulationCountPrecision (logcount shift : Nat) : Nat :=
  let r : Int := min (logcount : Int)
    ((shift : Int) - (((ANS_LOG_TAB_SIZE - logcount) / 2 : Nat) : Int))
  if r < 0 then 0 else r.toNat

theorem GetPopulationCountPrecision_le (logcount shift : Nat) :
    GetPopulationCountPrecision logcount shift ≤ logcount := by
  rw [GetPopulationCountPrecision]
  have h1 : min (logcount : Int)
      ((shift : Int) - (((ANS_LOG_TAB_SIZE - logcount) / 2 : Nat) : Int))
      ≤ (logcount : Int) := min_le_left _ _
  split
  · omega
  · omega

/-- The 128-entry static Huffman table for log-counts (implementation file,
lines 112-129): `(bit count, logcount value)` indexed by 7 peeked bits. -/
def logCountHuff : List (Nat × Nat) :=
  [(3, 10), (7, 12), (3, 7), (4, 3), (3, 6), (3, 8), (3, 9), (4, 5),
   (3, 10), (4, 4),  (3, 7), (4, 1), (3, 6), (3, 8), (3, 9), (4, 2),
   (3, 10), (5, 0),  (3, 7), (4, 3), (3, 6), (3, 8), (3, 9), (4, 5),
   (3, 10), (4, 4),  (3, 7), (4, 1), (3, 6), (3, 8), (3, 9), (4, 2),
   (3, 10), (6, 11), (3, 7), (4, 3), (3, 6), (3, 8), (3, 9), (4, 5),
   (3, 10), (4, 4),  (3, 7), (4, 1), (3, 6), (3, 8), (3, 9), (4, 2),
   (3, 10), (5, 0),  (3, 7), (4, 3), (3, 6), (3, 8), (3, 9), (4, 5),
   (3, 10), (4, 4),  (3, 7), (4, 1), (3, 6), (3, 8), (3, 9), (4, 2),
   (3, 10), (7, 13), (3, 7), (4, 3), (3, 6), (3, 8), (3, 9), (4, 5),
   (3, 10), (4, 4),  (3, 7), (4, 1), (3, 6), (3, 8), (3, 9), (4, 2),
   (3, 10), (5, 0),  (3, 7), (4, 3), (3, 6), (3, 8), (3, 9), (4, 5),
   (3, 10), (4, 4),  (3, 7), (4, 1), (3, 6), (3, 8), (3, 9), (4, 2),
   (3, 10), (6, 11), (3, 7), (4, 3), (3, 6), (3, 8), (3, 9), (4, 5),
   (3, 10), (4, 4),  (3, 7), (4, 1), (3, 6), (3, 8), (3, 9), (4, 2),
   (3, 10), (5, 0),  (3, 7), (4, 3), (3, 6), (3, 8), (3, 9), (4, 5),
   (3, 10), (4, 4),  (3, 7), (4, 1), (3, 6), (3, 8), (3, 9), (4, 2)]

/-- The unary-prefixed exponent read for the `shift` field (implementation
file, lines 96-102): up to `bound` leading 1 bits, stopped by a 0 bit. -/
def readUnaryLog : Nat → BitReader → Nat × BitReader
  | 0, br => (0, br)
  | bound + 1, br =>
    let b := br.readBits 1
    if b.1 = 0 then (0, b.2)
    else
      let rest := readUnaryLog bound b.2
      (rest.1 + 1, rest.2)

/-- Result of the first pass of the general histogram path. -/
structure Pass1Result where
  logcounts : List Nat
  same : List Nat
  omit_log : Int
  omit_pos : Int
  br : BitReader

/-- First pass of the general path (implementation file, lines 131-152): per
position, decode a log-count through the 7-bit table; a value of
`ANS_LOG_TAB_SIZE + 1` is the RLE escape (read a run length, mark `same`,
skip ahead); otherwise track the position of the strictly largest log-count.
`fuel` bounds the iteration count (the loop index strictly increases, so
`fuel = len` suffices). -/
def histPass1 (len : Nat) :
    Nat → Nat → List Nat → List Nat → Int → Int → BitReader → Pass1Result
  | 0, _, logcounts, same, omit_log, omit_pos, br =>
    Pass1Result.mk logcounts same omit_log omit_pos br
  | fuel + 1, i, logcounts, same, omit_log, omit_pos, br =>
    if i < len then
      let idx := br.peekBits 7
      let entry := logCountHuff.getD idx (0, 0)
      let br1 := br.consume entry.1
      let lc := entry.2
      let logcounts1 := logcounts.set i lc
      if lc = ANS_LOG_TAB_SIZE + 1 then
        let r := decodeVarLenUint8 br1
        let same1 := same.set i (r.1 + 5)
        histPass1 len fuel (i + (r.1 + 3) + 1) logcounts1 same1 omit_log omit_pos r.2
      else
        if (lc : Int) > omit_log then
          histPass1 len fuel (i + 1) logcounts1 same (lc : Int) (i : Int) br1
        else
          histPass1 len fuel (i + 1) logcounts1 same omit_log omit_pos br1
    else Pass1Result.mk logcounts same omit_log omit_pos br

/-- Result of the second pass of the general histogram path. -/
structure Pass2Result where
  counts : List Int
  total : Int
  br : BitReader

/-- Second pass of the general path (implementation file, lines 159-187):
positions covered by an RLE run replicate the preceding count; the omitted
position and zero log-counts are skipped; log-count 1 stores count 1; larger
log-counts store `2^(code-1)` plus extra mantissa bits; `total` accumulates
every stored count. -/
def histPass2 (len omit_pos shift : Nat) (logcounts same : List Nat) :
    Nat → Nat → Nat → Int → Int → List Int → BitReader → Pass2Result
  | 0, _, _, _, total, counts, br => Pass2Result.mk counts total br
  | fuel + 1, i, numsame, prev, total, counts, br =>
    if i < len then
      let numsame1 := if same.getD i 0 ≠ 0 then same.getD i 0 - 1 else numsame
      let prev1 := if same.getD i 0 ≠ 0 then (if i > 0 then counts.getD (i - 1) 0 else 0)
        else prev
      if numsame1 > 0 then
        histPass2 len omit_pos shift logcounts same fuel (i + 1) (numsame1 - 1) prev1
          (total + prev1) (counts.set i prev1) br
      else
        let code := logcounts.getD i 0
        if i = omit_pos then
          histPass2 len omit_pos shift logcounts same fuel (i + 1) numsame1 prev1
            total counts br
        else if code = 0 then
          histPass2 len omit_pos shift logcounts same fuel (i + 1) numsame1 prev1
            total counts br
        else if code = 1 then
          histPass2 len omit_pos shift logcounts same fuel (i + 1) numsame1 prev1
            (total + 1) (counts.set i 1) br
        else
          let bitcount := GetPopulationCountPrecision (code - 1) shift
          let v := br.readBits bitcount
          let cnt : Int := ((2 ^ (code - 1) : Nat) : Int)
            + ((v.1 <<< (code - 1 - bitcount) : Nat) : Int)
          histPass2 len omit_pos shift logcounts same fuel (i + 1) numsame1 prev1
            (total + cnt) (counts.set i cnt) v.2
    else Pass2Result.mk counts total br

/-- `ReadHistogram` (implementation file, lines 61-196): the three encodings
(simple / flat / general with RLE escapes), producing `counts` summing to
`2^precision_bits` or a decode failure (`none`). -/
def readHistogram (precision_bits : Nat) (br : BitReader) :
    Option (List Int × BitReader) :=
  let sc := br.readBits 1
  if sc.1 = 1 then
    let nsb := sc.2.readBits 1
    let num_symbols := nsb.1 + 1
    let sym0 := decodeVarLenUint8 nsb.2
    if num_symbols = 1 then
      some ((List.replicate (sym0.1 + 1) (0 : Int)).set sym0.1 ((2 ^ precision_bits : Nat) : Int),
        sym0.2)
    else
      let sym1 := decodeVarLenUint8 sym0.2
      let max_symbol := max sym0.1 sym1.1
      if sym0.1 = sym1.1 then none
      else
        let c0 := sym1.2.readBits precision_bits
        some ((((List.replicate (max_symbol + 1) (0 : Int)).set sym0.1 (c0.1 : Int)).set
            sym1.1 (((2 ^ precision_bits : Nat) : Int) - (c0.1 : Int))),
          c0.2)
  else
    let fl := sc.2.readBits 1
    if fl.1 = 1 then
      let a := decodeVarLenUint8 fl.2
      let alphabet_size := a.1 + 1
      if alphabet_size = 0 then none
      else some (CreateFlatHistogram alphabet_size (2 ^ precision_bits), a.2)
    else
      let upper_bound_log := FloorLog2Nonzero (ANS_LOG_TAB_SIZE + 1)
      let lg := readUnaryLog upper_bound_log fl.2
      let sv := lg.2.readBits lg.1
      let shift := (sv.1 ||| 2 ^ lg.1) - 1
      if shift > ANS_LOG_TAB_SIZE + 1 then none
      else
        let l := decodeVarLenUint8 sv.2
        let length := l.1 + 3
        let p1 := histPass1 length length 0 (List.replicate length 0)
          (List.replicate length 0) (-1) (-1) l.2
        if p1.omit_pos < 0 then none
        else
          let omit_pos := p1.omit_pos.toNat
          if omit_pos + 1 < length ∧ p1.logcounts.getD (omit_pos + 1) 0 = ANS_TAB_SIZE + 1 then
            none
          else
            let p2 := histPass2 length omit_pos shift p1.logcounts p1.same length 0 0 0 0
              (List.replicate length 0) p1.br
            let omitCount : Int := ((2 ^ precision_bits : Nat) : Int) - p2.total
            if omitCount ≤ 0 then none
            else some (p2.counts.set omit_pos omitCount, p2.br)

end Jxl

namespace Jxl

/-- **C7**: on the simple path (first bit 1), with `num_symbols` read as one
bit plus one: one symbol `s0` gets the full `counts[s0] = 2^precision_bits`;
two distinct symbols get `counts[s0]` equal to the explicitly read
`precision_bits`-wide count and `counts[s1] = 2^precision_bits - counts[s0]`;
two equal symbols are a decode failure. -/
theorem readHistogram_simple_path (P : Nat) (br : BitReader)
    (hsimple : br.peekBits 1 = 1)
    (ns : Nat) (hns : (br.consume 1).peekBits 1 = ns)
    (s0 : Nat) (br2 : BitReader)
    (h0 : decodeVarLenUint8 ((br.consume 1).consume 1) = (s0, br2))
    (s1 : Nat) (br3 : BitReader) (h1 : decodeVarLenUint8 br2 = (s1, br3)) :
    (ns = 0 → readHistogram P br
      = some ((List.replicate (s0 + 1) (0 : Int)).set s0 ((2 ^ P : Nat) : Int), br2))
    ∧ (ns = 1 → s0 = s1 → readHistogram P br = none)
    ∧ (ns = 1 → s0 ≠ s1 → readHistogram P br
      = some ((((List.replicate (max s0 s1 + 1) (0 : Int)).set s0
            ((br3.peekBits P : Nat) : Int)).set
          s1 (((2 ^ P : Nat) : Int) - ((br3.peekBits P : Nat) : Int))),
        br3.consume P)) := by
  refine ⟨?_, ?_, ?_⟩
  · intro hns0
    subst hns0
    norm_num [readHistogram, BitReader.readBits, hsimple, hns, h0]
  · intro hns1 heq
    subst hns1
    norm_num [readHistogram, BitReader.readBits, hsimple, hns, h0, h1, heq]
  · intro hns1 hne
    subst hns1
    norm_num [readHistogram, BitReader.readBits, hsimple, hns, h0, h1, hne]

/-- Witness for `readHistogram_simple_path`: the spec's boundary example —
simple path, two symbols 3 and 7, first count 1000, `precision_bits = 12` —
gives `counts[3] = 1000` and `counts[7] = 3096`. -/
theorem readHistogram_simple_path_witness :
    readHistogram 12 (BitReader.mk
      (fun i => (List.map (fun n => n == 1)
        ([1, 1] ++ [1, 1, 0, 0, 1] ++ [1, 0, 1, 0, 1, 1]
          ++ [0, 0, 0, 1, 0, 1, 1, 1, 1, 1, 0, 0])).getD i false) 0)
      = some ((((List.replicate 8 (0 : Int)).set 3 1000).set 7 (4096 - 1000)),
        BitReader.mk
          (fun i => (List.map (fun n => n == 1)
            ([1, 1] ++ [1, 1, 0, 0, 1] ++ [1, 0, 1, 0, 1, 1]
              ++ [0, 0, 0, 1, 0, 1, 1, 1, 1, 1, 0, 0])).getD i false) 25)
    ∧ ((((List.replicate 8 (0 : Int)).set 3 1000).set 7 (4096 - 1000)).getD 3 0 = 1000
      ∧ (((List.replicate 8 (0 : Int)).set 3 1000).set 7 (4096 - 1000)).getD 7 0 = 3096) := by
  refine ⟨?_, by decide, by decide⟩
  have h0c : decodeVarLenUint8
      (((BitReader.mk
        (fun i => (List.map (fun n => n == 1)
          ([1, 1] ++ [1, 1, 0, 0, 1] ++ [1, 0, 1, 0, 1, 1]
            ++ [0, 0, 0, 1, 0, 1, 1, 1, 1, 1, 0, 0])).getD i false) 0).consume 1).consume 1)
      = (3, BitReader.mk
        (fun i => (List.map (fun n => n == 1)
          ([1, 1] ++ [1, 1, 0, 0, 1] ++ [1, 0, 1, 0, 1, 1]
            ++ [0, 0, 0, 1, 0, 1, 1, 1, 1, 1, 0, 0])).getD i false) 7) := rfl
  have h1c : decodeVarLenUint8
      (BitReader.mk
        (fun i => (List.map (fun n => n == 1)
          ([1, 1] ++ [1, 1, 0, 0, 1] ++ [1, 0, 1, 0, 1, 1]
            ++ [0, 0, 0, 1, 0, 1, 1, 1, 1, 1, 0, 0])).getD i false) 7)
      = (7, BitReader.mk
        (fun i => (List.map (fun n => n == 1)
          ([1, 1] ++ [1, 1, 0, 0, 1] ++ [1, 0, 1, 0, 1, 1]
            ++ [0, 0, 0, 1, 0, 1, 1, 1, 1, 1, 0, 0])).getD i false) 13) := rfl
  have h := (readHistogram_simple_path 12
    (BitReader.mk
      (fun i => (List.map (fun n => n == 1)
        ([1, 1] ++ [1, 1, 0, 0, 1] ++ [1, 0, 1, 0, 1, 1]
          ++ [0, 0, 0, 1, 0, 1, 1, 1, 1, 1, 0, 0])).getD i false) 0)
    (by decide) 1 (by decide) 3 _ h0c 7 _ h1c).2.2 rfl (by decide)
  rw [h]
  rfl

end Jxl

namespace Jxl

/-- The general-path input used to exhibit the dead escape-after-omit check:
general encoding (bits 0,0), shift 0 (bit 0), length 6 (varint bits
1,1,0,0,1), then log-counts: position 0 decodes logcount 1 (code 1,1,0,1) and
becomes `omit_pos`; position 1 decodes the RLE escape logcount 13 (code
1,0,0,0,0,0,1) with run length 0 (bit 0), so the reserved escape value sits
immediately after `omit_pos`; position 5 decodes logcount 0 (code 1,0,0,0,1). -/
def escapeAfterOmitInput : BitReader :=
  BitReader.mk
    (fun i => (List.map (fun n => n == 1)
      [0, 0, 0, 1, 1, 0, 0, 1, 1, 1, 0, 1, 1, 0, 0, 0, 0, 0, 1, 0, 1, 0, 0, 0, 1]).getD i false)
    0

/-- **C6** (code bug): the source checks
`logcounts[omit_pos + 1] == ANS_TAB_SIZE + 1` (that is, 4097) instead of the
reserved escape value `ANS_LOG_TAB_SIZE + 1` (13); since log-counts never
exceed 13 the check is dead code, and an input whose position right after
`omit_pos` carries the escape decodes successfully where the claim (and the
accompanying `Invalid histogram` intent) requires failure.  On
`escapeAfterOmitInput`, the first pass puts `omit_pos = 0` with the escape
value 13 at position 1, yet `ReadHistogram` succeeds. -/
theorem readHistogram_escape_after_omit_bug :
    (histPass1 6 6 0 (List.replicate 6 0) (List.replicate 6 0) (-1) (-1)
        (escapeAfterOmitInput.consume 8)).omit_pos = 0
    ∧ (histPass1 6 6 0 (List.replicate 6 0) (List.replicate 6 0) (-1) (-1)
        (escapeAfterOmitInput.consume 8)).logcounts.getD 1 0 = ANS_LOG_TAB_SIZE + 1
    ∧ (readHistogram 12 escapeAfterOmitInput).map (fun p => (p.1, p.2.pos))
      = some ([4096, 0, 0, 0, 0, 0], 25) := by
  refine ⟨by decide, by decide, ?_⟩
  have h : readHistogram 12 escapeAfterOmitInput
      = some ([4096, 0, 0, 0, 0, 0], escapeAfterOmitInput.consume 25) := rfl
  rw [h]
  rfl

end Jxl

namespace Jxl

theorem getD_set_ne {α : Type} {l : List α} {i j : Nat} {v d : α} (h : i ≠ j) :
    (l.set i v).getD j d = l.getD j d := by
  simp [List.getD_eq_getElem?_getD, List.getElem?_set_ne h]

theorem getD_set_self {α : Type} {l : List α} {i : Nat} {v d : α} (h : i < l.length) :
    (l.set i v).getD i d = v := by
  simp [List.getD_eq_getElem?_getD, List.getElem?_set_self h]

theorem getD_replicate_zero {n j : Nat} : (List.replicate n (0 : Int)).getD j 0 = 0 := by
  by_cases h : j < n
  · simp [List.getD_eq_getElem?_getD, List.getElem?_replicate, h]
  · rw [List.getD_eq_getElem?_getD, List.getElem?_eq_none]
    · rfl
    · simpa using h
  
theorem sum_set_of_getD_zero {l : List Int} {i : Nat} {v : Int}
    (hlen : i < l.length) (hz : l.getD i 0 = 0) :
    (l.set i v).sum = l.sum + v := by
  rw [List.sum_set' l i v]
  rw [dif_pos hlen]
  have h1 : l[i] = l.getD i 0 := by
    rw [List.getD_eq_getElem?_getD, List.getElem?_eq_getElem hlen]
    rfl
  rw [h1, hz]
  ring

theorem sum_range_flat (n r : Nat) (q : Int) :
    ((List.range n).map fun i =>
      if i < r then q + 1 else q).sum = n * q + ((min n r : Nat) : Int) := by
  induction n with
  | zero => simp
  | succ n ih =>
    rw [List.range_succ, List.map_append, List.sum_append, ih]
    by_cases h : n < r
    · rw [List.map_singleton, List.sum_singleton, if_pos h]
      have h1 : min (n + 1) r = min n r + 1 := by omega
      rw [h1]
      push_cast
      ring
    · rw [List.map_singleton, List.sum_singleton, if_neg h]
      have h1 : min (n + 1) r = min n r := by omega
      rw [h1]
      push_cast
      ring

theorem createFlatHistogram_sum (length total : Nat) (hl : 0 < length) :
    (CreateFlatHistogram length total).sum = total
    ∧ ∀ c ∈ CreateFlatHistogram length total, 0 ≤ c := by
  constructor
  · rw [CreateFlatHistogram, sum_range_flat]
    have h1 : min length (total % length) = total % length :=
      Nat.min_eq_right (le_of_lt (Nat.mod_lt _ hl))
    rw [h1]
    have h2 : length * (total / length) + total % length = total := Nat.div_add_mod _ _
    exact_mod_cast h2
  · intro c hc
    rw [CreateFlatHistogram] at hc
    simp only [List.mem_map, List.mem_range] at hc
    obtain ⟨i, -, hi⟩ := hc
    by_cases h : i < total % length
    · rw [if_pos h] at hi
      rw [← hi]
      positivity
    · rw [if_neg h] at hi
      rw [← hi]
      positivity

end Jxl

namespace Jxl

/-- Well-formedness of a first-pass result: a found omit position lies below
`len`, carries no RLE mark, and every RLE mark's replicated range
`[j, j + same[j] - 1)` avoids it. -/
def Pass1Good (len : Nat) (r : Pass1Result) : Prop :=
  r.same.length = len
  ∧ (0 ≤ r.omit_pos →
      r.omit_pos.toNat < len
      ∧ r.same.getD r.omit_pos.toNat 0 = 0
      ∧ ∀ j, r.same.getD j 0 ≠ 0 →
          (r.omit_pos.toNat < j ∨ j + (r.same.getD j 0 - 1) ≤ r.omit_pos.toNat))

theorem histPass1_invariant (len : Nat) :
    ∀ (fuel i : Nat) (logcounts same : List Nat) (omit_log omit_pos : Int) (br : BitReader),
      len ≤ fuel + i →
      same.length = len →
      (∀ j, i ≤ j → same.getD j 0 = 0) →
      (∀ j, same.getD j 0 ≠ 0 → j + (same.getD j 0 - 1) ≤ i) →
      (0 ≤ omit_pos →
        omit_pos.toNat < i ∧ omit_pos.toNat < len ∧ same.getD omit_pos.toNat 0 = 0
        ∧ ∀ j, same.getD j 0 ≠ 0 →
            (omit_pos.toNat < j ∨ j + (same.getD j 0 - 1) ≤ omit_pos.toNat)) →
      Pass1Good len (histPass1 len fuel i logcounts same omit_log omit_pos br) := by
  intro fuel
  induction fuel with
  | zero =>
    intro i logcounts same omit_log omit_pos br hfuel hlen hunm hend homit
    rw [histPass1]
    refine ⟨hlen, fun hop => ?_⟩
    obtain ⟨h1, h2, h3, h4⟩ := homit hop
    exact ⟨h2, h3, h4⟩
  | succ fuel ih =>
    intro i logcounts same omit_log omit_pos br hfuel hlen hunm hend homit
    rw [histPass1]
    by_cases hi : i < len
    · rw [if_pos hi]
      simp only
      by_cases hesc : (logCountHuff.getD (br.peekBits 7) (0, 0)).2 = ANS_LOG_TAB_SIZE + 1
      · rw [if_pos hesc]
        set r := decodeVarLenUint8 (br.consume (logCountHuff.getD (br.peekBits 7) (0, 0)).1)
          with hr
        apply ih
        · omega
        · rw [List.length_set, hlen]
        · intro j hj
          have hij : i ≠ j := by omega
          rw [getD_set_ne hij]
          exact hunm j (by omega)
        · intro j hj
          by_cases hji : j = i
          · subst hji
            rw [getD_set_self (by omega)] at hj ⊢
            omega
          · rw [getD_set_ne (Ne.symm hji)] at hj ⊢
            have := hend j hj
            omega
        · intro hop
          obtain ⟨h1, h2, h3, h4⟩ := homit hop
          refine ⟨by omega, h2, ?_, ?_⟩
          · rw [getD_set_ne (by omega : i ≠ omit_pos.toNat)]
            exact h3
          · intro j hj
            by_cases hji : j = i
            · subst hji
              left
              omega
            · rw [getD_set_ne (Ne.symm hji)] at hj ⊢
              exact h4 j hj
      · rw [if_neg hesc]
        by_cases hgt : ((logCountHuff.getD (br.peekBits 7) (0, 0)).2 : Int) > omit_log
        · rw [if_pos hgt]
          apply ih
          · omega
          · exact hlen
          · intro j hj
            exact hunm j (by omega)
          · intro j hj
            have := hend j hj
            omega
          · intro _
            have htn : ((i : Int)).toNat = i := Int.toNat_ofNat i
            refine ⟨by omega, by omega, ?_, ?_⟩
            · rw [htn]
              exact hunm i le_rfl
            · intro j hj
              right
              rw [htn]
              exact hend j hj
        · rw [if_neg hgt]
          apply ih
          · omega
          · exact hlen
          · intro j hj
            exact hunm j (by omega)
          · intro j hj
            have := hend j hj
            omega
          · intro hop
            obtain ⟨h1, h2, h3, h4⟩ := homit hop
            exact ⟨by omega, h2, h3, h4⟩
    · rw [if_neg hi]
      refine ⟨hlen, fun hop => ?_⟩
      obtain ⟨h1, h2, h3, h4⟩ := homit hop
      exact ⟨h2, h3, h4⟩

end Jxl

namespace Jxl

theorem nonneg_getD {l : List Int} (h : ∀ c ∈ l, 0 ≤ c) (j : Nat) : 0 ≤ l.getD j 0 := by
  by_cases hj : j < l.length
  · rw [List.getD_eq_getElem?_getD, List.getElem?_eq_getElem hj]
    exact h _ (List.getElem_mem hj)
  · rw [List.getD_eq_getElem?_getD, List.getElem?_eq_none (by omega)]
    exact le_refl 0

/-- Well-formedness of a second-pass result: counts as long as the alphabet,
all non-negative, summing to the accumulated total, with the omitted position
still zero. -/
def Pass2Good (len omitp : Nat) (r : Pass2Result) : Prop :=
  r.counts.length = len
  ∧ (∀ c ∈ r.counts, 0 ≤ c)
  ∧ r.counts.sum = r.total
  ∧ r.counts.getD omitp 0 = 0

theorem histPass2_invariant (len omitp shift : Nat) (logcounts same : List Nat)
    (homit : omitp < len)
    (G1 : same.getD omitp 0 = 0)
    (G2 : ∀ j, same.getD j 0 ≠ 0 → omitp < j ∨ j + (same.getD j 0 - 1) ≤ omitp) :
    ∀ (fuel i numsame : Nat) (prev total : Int) (counts : List Int) (br : BitReader),
      len ≤ fuel + i →
      counts.length = len →
      (∀ c ∈ counts, 0 ≤ c) →
      0 ≤ prev →
      counts.sum = total →
      (∀ j, i ≤ j → j < len → counts.getD j 0 = 0) →
      counts.getD omitp 0 = 0 →
      (0 < numsame → i ≤ omitp → i + numsame ≤ omitp) →
      Pass2Good len omitp (histPass2 len omitp shift logcounts same fuel i numsame prev total counts br) := by
  intro fuel
  induction fuel with
  | zero =>
    intro i numsame prev total counts br hfuel hlen hnn hprev hsum hzero homit0 hns
    rw [histPass2]
    exact ⟨hlen, hnn, hsum, homit0⟩
  | succ fuel ih =>
    intro i numsame prev total counts br hfuel hlen hnn hprev hsum hzero homit0 hns
    rw [histPass2]
    by_cases hi : i < len
    · rw [if_pos hi]
      simp only
      set numsame1 := if same.getD i 0 ≠ 0 then same.getD i 0 - 1 else numsame with hns1
      set prev1 := if same.getD i 0 ≠ 0 then (if i > 0 then counts.getD (i - 1) 0 else 0)
        else prev with hp1
      have hprev1 : 0 ≤ prev1 := by
        rw [hp1]
        split
        · split
          · exact nonneg_getD hnn (i - 1)
          · exact le_refl 0
        · exact hprev
      have hset_ok : ∀ v : Int, 0 ≤ v →
          (counts.set i v).length = len
          ∧ (∀ c ∈ counts.set i v, 0 ≤ c)
          ∧ (counts.set i v).sum = total + v
          ∧ (∀ j, i + 1 ≤ j → j < len → (counts.set i v).getD j 0 = 0) := by
        intro v hv
        refine ⟨by rw [List.length_set, hlen], ?_, ?_, ?_⟩
        · intro c hc
          rcases List.mem_or_eq_of_mem_set hc with hc1 | hc1
          · exact hnn c hc1
          · omega
        · rw [sum_set_of_getD_zero (by omega) (hzero i le_rfl hi), hsum]
        · intro j hj1 hj2
          rw [getD_set_ne (by omega)]
          exact hzero j (by omega) hj2
      by_cases hcopy : numsame1 > 0
      · rw [if_pos hcopy]
        have hio : i ≠ omitp := by
          intro heq
          subst heq
          rw [hns1] at hcopy
          rw [if_neg (by simpa using G1)] at hcopy
          have := hns hcopy le_rfl
          omega
        obtain ⟨hl1, hl2, hl3, hl4⟩ := hset_ok prev1 hprev1
        apply ih <;> try assumption
        · omega
        · rw [getD_set_ne hio]
          exact homit0
        · intro hpos hle
          rw [hns1] at hcopy hpos ⊢
          by_cases hmark : same.getD i 0 ≠ 0
          · rw [if_pos hmark] at hcopy hpos ⊢
            rcases G2 i hmark with hcase | hcase
            · omega
            · omega
          · rw [if_neg hmark] at hcopy hpos ⊢
            have := hns (by omega) (by omega)
            omega
      · rw [if_neg hcopy]
        by_cases hiom : i = omitp
        · rw [if_pos hiom]
          apply ih <;> try assumption
          · omega
          · intro j hj1 hj2
            exact hzero j (by omega) hj2
          · omega
        · rw [if_neg hiom]
          by_cases hc0 : logcounts.getD i 0 = 0
          · rw [if_pos hc0]
            apply ih <;> try assumption
            · omega
            · intro j hj1 hj2
              exact hzero j (by omega) hj2
            · omega
          · rw [if_neg hc0]
            by_cases hc1 : logcounts.getD i 0 = 1
            · rw [if_pos hc1]
              obtain ⟨hl1, hl2, hl3, hl4⟩ := hset_ok 1 (by omega)
              apply ih <;> try assumption
              · omega
              · rw [getD_set_ne hiom]
                exact homit0
              · omega
            · rw [if_neg hc1]
              have hcnt : (0:Int) ≤ ((2 ^ (logcounts.getD i 0 - 1) : Nat) : Int)
                  + (((br.peekBits (GetPopulationCountPrecision (logcounts.getD i 0 - 1) shift)
                      <<< (logcounts.getD i 0 - 1
                        - GetPopulationCountPrecision (logcounts.getD i 0 - 1) shift) : Nat)) : Int) := by
                positivity
              obtain ⟨hl1, hl2, hl3, hl4⟩ := hset_ok _ hcnt
              apply ih <;> try assumption
              · omega
              · rw [getD_set_ne hiom]
                exact homit0
              · omega
    · rw [if_neg hi]
      exact ⟨hlen, hnn, hsum, homit0⟩

end Jxl

namespace Jxl

theorem sum_replicate_zero (n : Nat) : (List.replicate n (0 : Int)).sum = 0 := by
  simp

theorem getD_replicate_self {α : Type} (v : α) {n j : Nat} :
    (List.replicate n v).getD j v = v := by
  by_cases h : j < n
  · simp [List.getD_eq_getElem?_getD, List.getElem?_replicate, h]
  · rw [List.getD_eq_getElem?_getD, List.getElem?_eq_none (by simpa using h)]
    rfl

/-- **C3**: whenever `ReadHistogram` succeeds, the resulting counts are
non-negative and sum exactly to `2^precision_bits`, on all three encoding
paths (simple, flat, general — including inputs that use RLE escapes). -/
theorem readHistogram_sum (P : Nat) (br : BitReader) (counts : List Int) (br2 : BitReader)
    (h : readHistogram P br = some (counts, br2)) :
    (∀ c ∈ counts, 0 ≤ c) ∧ counts.sum = ((2 ^ P : Nat) : Int) := by
  rw [readHistogram] at h
  simp only at h
  by_cases h1 : (br.readBits 1).1 = 1
  · rw [if_pos h1] at h
    generalize ((br.readBits 1).2.readBits 1).2 = brA at h
    by_cases h2 : ((br.readBits 1).2.readBits 1).1 + 1 = 1
    · rw [if_pos h2] at h
      simp only [Option.some.injEq, Prod.mk.injEq] at h
      obtain ⟨hc, -⟩ := h
      subst hc
      constructor
      · intro c hc
        rcases List.mem_or_eq_of_mem_set hc with hc1 | hc1
        · rw [List.eq_of_mem_replicate hc1]
        · rw [hc1]
          positivity
      · rw [sum_set_of_getD_zero (by simp) getD_replicate_zero, sum_replicate_zero]
        ring
    · rw [if_neg h2] at h
      generalize decodeVarLenUint8 brA = dv0 at h
      generalize hdv1 : decodeVarLenUint8 dv0.2 = dv1 at h
      by_cases h3 : dv0.1 = dv1.1
      · rw [if_pos h3] at h
        exact absurd h (by simp)
      · rw [if_neg h3] at h
        simp only [Option.some.injEq, Prod.mk.injEq] at h
        obtain ⟨hc, -⟩ := h
        subst hc
        have hc0 : ((dv1.2.readBits P).1 : Int) < ((2 ^ P : Nat) : Int) := by
          exact_mod_cast dv1.2.peekBits_lt P
        have hc0n : (0:Int) ≤ ((dv1.2.readBits P).1 : Int) := by positivity
        constructor
        · intro c hc
          rcases List.mem_or_eq_of_mem_set hc with hc1 | hc1
          · rcases List.mem_or_eq_of_mem_set hc1 with hc2 | hc2
            · rw [List.eq_of_mem_replicate hc2]
            · rw [hc2]
              exact hc0n
          · rw [hc1]
            omega
        · rw [sum_set_of_getD_zero]
          · rw [sum_set_of_getD_zero (by simp; omega) getD_replicate_zero,
              sum_replicate_zero]
            ring
          · simp only [List.length_set, List.length_replicate]
            omega
          · rw [getD_set_ne h3, getD_replicate_zero]
  · rw [if_neg h1] at h
    by_cases h2 : ((br.readBits 1).2.readBits 1).1 = 1
    · rw [if_pos h2] at h
      rw [if_neg (by omega)] at h
      simp only [Option.some.injEq, Prod.mk.injEq] at h
      obtain ⟨hc, -⟩ := h
      subst hc
      have hfl := createFlatHistogram_sum
        ((decodeVarLenUint8 ((br.readBits 1).2.readBits 1).2).1 + 1) (2 ^ P) (by omega)
      exact ⟨hfl.2, by exact_mod_cast hfl.1⟩
    · rw [if_neg h2] at h
      generalize ((br.readBits 1).2.readBits 1).2 = brA at h
      generalize readUnaryLog (FloorLog2Nonzero (ANS_LOG_TAB_SIZE + 1)) brA = ul at h
      generalize ul.2.readBits ul.1 = sv at h
      by_cases h3 : (sv.1 ||| 2 ^ ul.1) - 1 > ANS_LOG_TAB_SIZE + 1
      · rw [if_pos h3] at h
        exact absurd h (by simp)
      · rw [if_neg h3] at h
        generalize (sv.1 ||| 2 ^ ul.1) - 1 = shiftv at h
        generalize decodeVarLenUint8 sv.2 = dv at h
        generalize hln : dv.1 + 3 = lnum at h
        generalize hP1 : histPass1 lnum lnum 0 (List.replicate lnum 0)
          (List.replicate lnum 0) (-1) (-1) dv.2 = p1 at h
        have hgood1 : Pass1Good lnum p1 := by
          rw [← hP1]
          apply histPass1_invariant
          · omega
          · exact List.length_replicate _ _
          · intro j _
            exact getD_replicate_self 0
          · intro j hj
            exact absurd (getD_replicate_self 0) hj
          · intro hop
            exact absurd hop (by norm_num)
        by_cases h4 : p1.omit_pos < 0
        · rw [if_pos h4] at h
          exact absurd h (by simp)
        · rw [if_neg h4] at h
          obtain ⟨hgl, hgo⟩ := hgood1
          obtain ⟨ho1, ho2, ho3⟩ := hgo (by omega)
          by_cases h5 : p1.omit_pos.toNat + 1 < lnum
              ∧ p1.logcounts.getD (p1.omit_pos.toNat + 1) 0 = ANS_TAB_SIZE + 1
          · rw [if_pos h5] at h
            exact absurd h (by simp)
          · rw [if_neg h5] at h
            generalize hP2 : histPass2 lnum p1.omit_pos.toNat shiftv p1.logcounts p1.same
              lnum 0 0 0 0 (List.replicate lnum 0) p1.br = p2 at h
            have hgood2 : Pass2Good lnum p1.omit_pos.toNat p2 := by
              rw [← hP2]
              apply histPass2_invariant <;> try assumption
              · omega
              · exact List.length_replicate _ _
              · intro c hc
                rw [List.eq_of_mem_replicate hc]
              · exact le_refl 0
              · exact sum_replicate_zero _
              · intro j _ _
                exact getD_replicate_zero
              · exact getD_replicate_zero
              · omega
            obtain ⟨hq1, hq2, hq3, hq4⟩ := hgood2
            by_cases h6 : ((2 ^ P : Nat) : Int) - p2.total ≤ 0
            · rw [if_pos h6] at h
              exact absurd h (by simp)
            · rw [if_neg h6] at h
              simp only [Option.some.injEq, Prod.mk.injEq] at h
              obtain ⟨hc, -⟩ := h
              subst hc
              constructor
              · intro c hc
                rcases List.mem_or_eq_of_mem_set hc with hc1 | hc1
                · exact hq2 c hc1
                · omega
              · rw [sum_set_of_getD_zero (by omega) hq4, hq3]
                ring

end Jxl

namespace Jxl

/-- Witness for `readHistogram_sum`: the spec's flat boundary example
(alphabet 4, precision 12) decodes to `[1024, 1024, 1024, 1024]`, which is
non-negative and sums to `2^12`. -/
theorem readHistogram_sum_witness :
    (∀ c ∈ ([1024, 1024, 1024, 1024] : List Int), 0 ≤ c)
    ∧ ([1024, 1024, 1024, 1024] : List Int).sum = ((2 ^ 12 : Nat) : Int) := by
  have h : readHistogram 12
      (BitReader.mk
        (fun i => (List.map (fun n => n == 1) [0, 1, 1, 1, 0, 0, 1]).getD i false) 0)
      = some ([1024, 1024, 1024, 1024],
        BitReader.mk
          (fun i => (List.map (fun n => n == 1) [0, 1, 1, 1, 0, 0, 1]).getD i false) 7) := rfl
  exact readHistogram_sum 12 _ _ _ h

end Jxl

namespace Jxl

/-- Modelled from the spec: one `U32` field of the `fields.h` visitor (not in
src/): a 2-bit selector choosing one of four distributions, each a pair
`(extra bits, offset)` — `Val(v)` is `(0, v)` and `BitsOffset(n, o)` is
`(n, o)` — followed by the chosen number of payload bits. -/
def readU32Selector (d0 d1 d2 d3 : Nat × Nat) (br : BitReader) : Nat × BitReader :=
  let s := br.readBits 2
  let d := if s.1 = 0 then d0 else if s.1 = 1 then d1 else if s.1 = 2 then d2 else d3
  let v := s.2.readBits d.1
  (v.1 + d.2, v.2)

/-- The serialized fields of `LZ77Params` (`jxl/dec_ans.h`, lines 106-130). -/
structure LZ77ParamsData where
  enabled : Bool
  min_symbol : Nat
  min_length : Nat

/-- Modelled from the spec: `Bundle::Read` of `LZ77Params`
(`LZ77Params::VisitFields` with the `fields.h` visitor, not in src/): a 1-bit
`enabled` flag; when set, `min_symbol` (selector
`Val(224), Val(512), Val(4096), BitsOffset(15, 8)`) and `min_length`
(selector `Val(3), Val(4), BitsOffset(2, 5), BitsOffset(8, 9)`) follow;
when clear the defaults 224 and 3 stand. -/
def readLZ77Params (br : BitReader) : LZ77ParamsData × BitReader :=
  let e := br.readBits 1
  if e.1 = 1 then
    let ms := readU32Selector (0, 224) (0, 512) (0, 4096) (15, 8) e.2
    let ml := readU32Selector (0, 3) (0, 4) (2, 5) (8, 9) ms.2
    (LZ77ParamsData.mk true ms.1 ml.1, ml.2)
  else (LZ77ParamsData.mk false 224 3, e.2)

/-- `DecodeHistograms` (implementation file, lines 305-337), embedded up to
the `disallow_lz77` policy check, in source order: read the `LZ77Params`
bundle; if enabled, bump `num_contexts` and decode the length
`HybridUintConfig` with `log_alpha_size = 8` (failure propagates); then fail
if enabled and `disallow_lz77`.  Everything after the check — context map,
`use_prefix_code` bit, per-histogram uint configs and histograms — is the
abstract continuation `rest`, which receives the updated context count, the
optional length config and the cursor. -/
def decodeHistograms {α : Type}
    (rest : Nat → Option HybridUintConfig → BitReader → Option α)
    (num_contexts : Nat) (disallow_lz77 : Bool) (br : BitReader) : Option α :=
  let lz := readLZ77Params br
  if lz.1.enabled then
    match decodeUintConfig 8 lz.2 with
    | none => none
    | some (lenCfg, br1) =>
      if disallow_lz77 then none
      else rest (num_contexts + 1) (some lenCfg) br1
  else
    rest num_contexts none lz.2

/-- **C9**: whenever the LZ77 `enabled` flag decodes to true, calling
`DecodeHistograms` with `disallow_lz77` set fails and produces no `ANSCode`;
the result is `none` for every continuation `rest`, i.e. the check fires
after the LZ77 length config is decoded (whose own failure also yields
`none`) and before any context map or histogram could be consulted. -/
theorem decodeHistograms_disallow_lz77 {α : Type}
    (rest : Nat → Option HybridUintConfig → BitReader → Option α)
    (num_contexts : Nat) (br : BitReader)
    (hen : (readLZ77Params br).1.enabled = true) :
    decodeHistograms rest num_contexts true br = none := by
  rw [decodeHistograms]
  simp only [hen, if_true]
  rcases decodeUintConfig 8 (readLZ77Params br).2 with - | ⟨c, b⟩
  · rfl
  · rfl

/-- Witness for `decodeHistograms_disallow_lz77`: a stream enabling LZ77
(`enabled = 1`, both selectors `Val`, then a valid length config with
`split_exponent = 8`) is rejected under `disallow_lz77` for a concrete
continuation. -/
theorem decodeHistograms_disallow_lz77_witness :
    (readLZ77Params (BitReader.mk
      (fun i => (List.map (fun n => n == 1) [1, 0, 0, 0, 0, 0, 0, 0, 1]).getD i false)
      0)).1.enabled = true
    ∧ decodeHistograms (fun _ _ _ => some 0) 5 true
      (BitReader.mk
        (fun i => (List.map (fun n => n == 1) [1, 0, 0, 0, 0, 0, 0, 0, 1]).getD i false)
        0) = none :=
  ⟨by decide,
    decodeHistograms_disallow_lz77 (fun _ _ _ => some (0 : Nat)) 5
      (BitReader.mk
        (fun i => (List.map (fun n => n == 1) [1, 0, 0, 0, 0, 0, 0, 0, 1]).getD i false)
        0)
      (by decide)⟩

end Jxl
